import Mathlib

/-!
Verification development for the `dlid-hid-js` AAMVA DL/ID barcode parser.

The repository contains two generations of the incremental parser:

* the step-function engine in the second half of `src/parse.ts`
  (`makeParseHeaderFunc`, `makeParseSubfileDesignatorFunc`, `parseSubfile`,
  `maybeParseRecord`, `parseRecord`, `_Parser.parse`) working over the
  growable `StringIO` buffer from `stringio.ts`; and
* the older mutable step-queue parser in the first half of `src/parse.ts`
  (`makeHeaderParsers`, `parseSubfileDesignator`, `parseSubfile`,
  `parseRecord`, `_Parser.append` / `updateParse`).

Both are embedded below.  JS strings are modelled as `List Char`, JS numbers
reaching the parser as `Int` (all relevant values are integers), exceptions as
`Except`, and the closures held in the engine's step queue are
defunctionalized into the inductive `PFunc` (newer engine) and `StepA` (older
engine), carrying exactly the mutable state each closure captures.
-/

set_option linter.unusedVariables false

/-- JS strings (sequences of UTF-16 code units; here code points suffice). -/
abbrev Str := List Char

/-- Error taxonomy of the parser: `eof` is the recoverable `EOF` /
insufficient-data condition, `headerParse` is `HeaderParseError`, `parse` is
the general `ParseError`. -/
inductive PErr where
  | eof
  | headerParse
  | parse
deriving DecidableEq

instance exceptDecEq {e a : Type} [DecidableEq e] [DecidableEq a] :
    DecidableEq (Except e a) := fun x y =>
  match x, y with
  | .error u, .error v =>
    if h : u = v then isTrue (by rw [h]) else isFalse (by simp [h])
  | .ok u, .ok v =>
    if h : u = v then isTrue (by rw [h]) else isFalse (by simp [h])
  | .error _, .ok _ => isFalse (by simp)
  | .ok _, .error _ => isFalse (by simp)

/-- The growable buffer reader: class `StringIO` of `stringio.ts` (identical
to class `StringReader` of the older parser): a backing string plus a read
cursor. -/
structure StringReader where
  data : Str
  pos : Int
deriving DecidableEq

/-- JS `String.prototype.substring(a, b)`: both indices are clamped into
`[0, length]` and swapped when `a > b`. -/
def jsSubstring (s : Str) (a b : Int) : Str :=
  let len : Int := (s.length : Int)
  let a2 := min (max a 0) len
  let b2 := min (max b 0) len
  let lo := (min a2 b2).toNat
  let hi := (max a2 b2).toNat
  (s.take hi).drop lo

/-- `get avail() { return this.data.length - this.pos }`. -/
def StringReader.avail (r : StringReader) : Int :=
  (r.data.length : Int) - r.pos

/-- `peek(n)`: throw `EOF` when `n > avail`, else
`this.data.substring(this.pos, this.pos + n)`. -/
def StringReader.peek (r : StringReader) (n : Int) : Except PErr Str :=
  if n > r.avail then .error .eof
  else .ok (jsSubstring r.data r.pos (r.pos + n))

/-- `read(n)`: `peek(n)` then advance the cursor by `n`. -/
def StringReader.read (r : StringReader) (n : Int) :
    Except PErr (Str × StringReader) :=
  match r.peek n with
  | .error e => .error e
  | .ok s => .ok (s, { r with pos := r.pos + n })

/-- `append(data)`: concatenate onto the backing string, cursor untouched. -/
def StringReader.append (r : StringReader) (d : Str) : StringReader :=
  { r with data := r.data ++ d }

/-- The ASCII whitespace skipped by JS `parseInt`. -/
def jsIsSpace (c : Char) : Bool :=
  c = ' ' || c = '\t' || c = '\n' || c = '\r' || c = '\x0b' || c = '\x0c'

/-- Decimal digit value. -/
def decDigit? (c : Char) : Option Nat :=
  if '0' ≤ c ∧ c ≤ '9' then some (c.toNat - '0'.toNat) else none

/-- Hexadecimal digit value. -/
def hexDigit? (c : Char) : Option Nat :=
  if '0' ≤ c ∧ c ≤ '9' then some (c.toNat - '0'.toNat)
  else if 'a' ≤ c ∧ c ≤ 'f' then some (c.toNat - 'a'.toNat + 10)
  else if 'A' ≤ c ∧ c ≤ 'F' then some (c.toNat - 'A'.toNat + 10)
  else none

/-- Longest prefix of digit values accepted by `f`. -/
def digitsPrefix (f : Char → Option Nat) : Str → List Nat
  | [] => []
  | c :: t =>
    match f c with
    | some v => v :: digitsPrefix f t
    | none => []

/-- Value of a digit sequence in the given base. -/
def digitsValue (base : Nat) (ds : List Nat) : Nat :=
  ds.foldl (fun a d => a * base + d) 0

/-- JS `parseInt(s)` with no radix argument: skip leading whitespace, optional
sign, optional `0x`/`0X` hex prefix, then the longest digit prefix; `none`
models `NaN`. -/
def jsParseInt (s : Str) : Option Int :=
  let s1 := s.dropWhile jsIsSpace
  let sgn : Int := match s1 with | '-' :: _ => -1 | _ => 1
  let s2 : Str := match s1 with | '-' :: t => t | '+' :: t => t | _ => s1
  let hex : Bool :=
    match s2 with
    | '0' :: c :: _ => c = 'x' || c = 'X'
    | _ => false
  if hex then
    let ds := digitsPrefix hexDigit? (s2.drop 2)
    if ds.isEmpty then none else some (sgn * (digitsValue 16 ds : Int))
  else
    let ds := digitsPrefix decDigit? s2
    if ds.isEmpty then none else some (sgn * (digitsValue 10 ds : Int))

/-- One character of the forbidden separator class `[a-zA-Z0-9 ]`. -/
def isSepForbidden (c : Char) : Bool :=
  ('a' ≤ c && c ≤ 'z') || ('A' ≤ c && c ≤ 'Z') ||
    ('0' ≤ c && c ≤ '9') || c = ' '

/-- `invalidSeparatorPattern.test(s)`: the regex `/[a-zA-Z0-9 ]/` matches
anywhere in `s`. -/
def invalidSeparatorTest (s : Str) : Bool :=
  s.any isSepForbidden

/-- Uppercase ASCII letter. -/
def isUpperAZ (c : Char) : Bool :=
  'A' ≤ c && c ≤ 'Z'

/-- `recordKeyPattern.test(s)`: the regex `/[A-Z]{3}/` matches anywhere in
`s`, i.e. `s` has three consecutive uppercase letters. -/
def hasUpperRun3 : Str → Bool
  | a :: b :: c :: t =>
    (isUpperAZ a && isUpperAZ b && isUpperAZ c) || hasUpperRun3 (b :: c :: t)
  | _ => false

/-- Records of one subfile: a JS `Map<string, string>` (also the older
parser's plain object), kept in insertion order. -/
abbrev RecMap := List (Str × Str)

/-- The subfiles map: subfile type code to its records. -/
abbrev SubfilesMap := List (Str × RecMap)

/-- JS `Map.prototype.set` (and object property assignment): update an
existing key in place, else append at the end. -/
def mapSet {α : Type} : List (Str × α) → Str → α → List (Str × α)
  | [], k, v => [(k, v)]
  | (k1, v1) :: t, k, v =>
    if k1 = k then (k, v) :: t else (k1, v1) :: mapSet t k v

/-- JS `Map.prototype.get` / property lookup. -/
def mapGet? {α : Type} : List (Str × α) → Str → Option α
  | [], _ => none
  | (k1, v1) :: t, k => if k1 = k then some v1 else mapGet? t k

/-- The DL/ID header (`Header` in `parse.ts`). -/
structure Header where
  dataElementSeparator : Str
  recordSeparator : Str
  segmentTerminator : Str
  iin : Str
  aamvaVersion : Str
  jurisdictionVersion : Str
  numEntries : Int
deriving DecidableEq

/-- A subfile designator directory entry. -/
structure SubfileDesignator where
  type : Str
  offset : Int
  length : Int
deriving DecidableEq

/-- The accumulating `ParseResult` of the newer engine. -/
structure ParseResult where
  header : Header
  subfileDesignators : List SubfileDesignator
  subfiles : SubfilesMap
deriving DecidableEq

/-- Defunctionalized `ParseFunc` closures of the newer engine.  The scan
steps `mrec` (`maybeParseRecord`) and `rec1` (`parseRecord`) carry the
captured snapshot reader and records map. -/
inductive PFunc where
  | hdr
  | hAt
  | hSep1
  | hSep2
  | hSep3
  | hAnsi
  | hIin
  | hVer
  | hJur
  | hNum
  | sds
  | sd1
  | sfs
  | sf (d : SubfileDesignator)
  | mrec (sfr : StringReader) (sfType : Str) (records : RecMap)
  | rec1 (sfr : StringReader) (sfType : Str) (records : RecMap)
deriving DecidableEq

/-- The value-accumulation loop inside the newer `parseRecord`, counter
form: peek one character; stop at the segment terminator or data element
separator, else `val += copied.read(1)` (which advances the local cursor by
one).  The structural counter only bounds the recursion; `valLoop` below
passes `copied.avail.toNat + 1`, which never runs out because each
iteration consumes one available character (the `counter = 0` case is
unreachable from that entry point). -/
def valLoopF : Nat → Header → StringReader → Str →
    Except PErr (Str × Str × StringReader)
  | 0, _, _, _ => .error .eof
  | counter + 1, hdr, copied, val =>
    match copied.peek 1 with
    | .error e => .error e
    | .ok next =>
      if next = hdr.segmentTerminator ∨ next = hdr.dataElementSeparator then
        .ok (val, next, copied)
      else
        valLoopF counter hdr { copied with pos := copied.pos + 1 }
          (val ++ next)

/-- The value-accumulation loop inside the newer `parseRecord`. -/
def valLoop (hdr : Header) (copied : StringReader) (val : Str) :
    Except PErr (Str × Str × StringReader) :=
  valLoopF (copied.avail.toNat + 1) hdr copied val

/-- `parseRecord` of the newer engine, as the body of the step
`(result) => parseRecord(reader, result, sfType, records)`: read the 3-char
key from a positional copy, validate it, accumulate the value, then commit
`records.set`, consume `key.length + val.length` (plus the data element
separator when it ended the record) from the captured subfile reader, and
queue `maybeParseRecord` again. -/
def rec1Out (sfr : StringReader) (ty : Str) (records : RecMap)
    (res : ParseResult) : Except PErr (ParseResult × List PFunc) :=
  let copied : StringReader := ⟨sfr.data, sfr.pos⟩
  match copied.read 3 with
  | .error e => .error e
  | .ok (key, copied1) =>
    if ¬ hasUpperRun3 key then .error .parse
    else
      match valLoop res.header copied1 [] with
      | .error e => .error e
      | .ok (val, nextc, _) =>
        let records1 := mapSet records key val
        match sfr.read ((key.length : Int) + (val.length : Int)) with
        | .error e => .error e
        | .ok (_, sfr1) =>
          if nextc = res.header.dataElementSeparator then
            match sfr1.read 1 with
            | .error e => .error e
            | .ok (_, sfr2) => .ok (res, [.mrec sfr2 ty records1])
          else .ok (res, [.mrec sfr1 ty records1])

/-- `maybeParseRecord` of the newer engine: peek one character of the
snapshot; `EOF` is caught and commits the records collected so far; the
segment terminator is consumed and commits; anything else queues
`parseRecord`. -/
def mrecOut (sfr : StringReader) (ty : Str) (records : RecMap)
    (res : ParseResult) : Except PErr (ParseResult × List PFunc) :=
  match sfr.peek 1 with
  | .error .eof =>
    .ok ({ res with subfiles := mapSet res.subfiles ty records }, [])
  | .error e => .error e
  | .ok next =>
    if next = res.header.segmentTerminator then
      match sfr.read 1 with
      | .error e => .error e
      | .ok _ =>
        .ok ({ res with subfiles := mapSet res.subfiles ty records }, [])
    else .ok (res, [.rec1 sfr ty records])

/-- `parseSubfile` of the newer engine: re-seek a copy of the shared reader
to the designator's offset, snapshot `length` characters, and for a
recognized type skip the 2-character prefix and queue `maybeParseRecord`
over a fresh records map; unrecognized types only validate the range. -/
def sfOut (d : SubfileDesignator) (data : Str) (res : ParseResult) :
    Except PErr (ParseResult × List PFunc) :=
  let copied : StringReader := ⟨data, d.offset⟩
  match copied.peek d.length with
  | .error e => .error e
  | .ok snap =>
    if d.type = ['D', 'L'] ∨ d.type = ['I', 'D'] then
      match ( StringReader.mk snap 0).read 2 with
      | .error e => .error e
      | .ok (_, sfr) => .ok (res, [.mrec sfr d.type []])
    else .ok (res, [])

/-- `readSeparator` of the newer engine: read one character and reject the
class `[a-zA-Z0-9 ]` with `HeaderParseError`. -/
def readSeparator (r : StringReader) : StringReader × Except PErr Str :=
  match r.read 1 with
  | .error e => (r, .error e)
  | .ok (s, r1) =>
    if invalidSeparatorTest s then (r1, .error .headerParse) else (r1, .ok s)

/-- `parseSubfileDesignator` (shared by both parser generations): peek 10
characters, read type/offset/length from the copy, reject `NaN`
offset/length, then consume the 10 characters from the shared reader. -/
def parseSubfileDesignator (r : StringReader) :
    StringReader × Except PErr SubfileDesignator :=
  match r.peek 10 with
  | .error e => (r, .error e)
  | .ok block =>
    match ( StringReader.mk block 0).read 2 with
    | .error e => (r, .error e)
    | .ok (ty, c1) =>
      match c1.read 4 with
      | .error e => (r, .error e)
      | .ok (offS, c2) =>
        match c2.read 4 with
        | .error e => (r, .error e)
        | .ok (lenS, _) =>
          match jsParseInt offS, jsParseInt lenS with
          | none, _ => (r, .error .parse)
          | some _, none => (r, .error .parse)
          | some off, some len =>
            match r.read 10 with
            | .error e => (r, .error e)
            | .ok (_, r1) => (r1, .ok ⟨ty, off, len⟩)

/-- Execute one defunctionalized `ParseFunc` of the newer engine against the
shared reader and current result.  The returned reader is the shared reader
after the step (unchanged when the step throws before consuming). -/
def runFunc (f : PFunc) (r : StringReader) (res : ParseResult) :
    StringReader × Except PErr (ParseResult × List PFunc) :=
  match f with
  | .hdr =>
    (r, .ok (res, [.hAt, .hSep1, .hSep2, .hSep3, .hAnsi, .hIin, .hVer,
      .hJur, .hNum]))
  | .hAt =>
    match r.read 1 with
    | .error e => (r, .error e)
    | .ok (s, r1) =>
      if s = ['@'] then (r1, .ok (res, [])) else (r1, .error .headerParse)
  | .hSep1 =>
    match readSeparator r with
    | (r1, .error e) => (r1, .error e)
    | (r1, .ok s) =>
      (r1, .ok ({ res with
        header := { res.header with dataElementSeparator := s } }, []))
  | .hSep2 =>
    match readSeparator r with
    | (r1, .error e) => (r1, .error e)
    | (r1, .ok s) =>
      (r1, .ok ({ res with
        header := { res.header with recordSeparator := s } }, []))
  | .hSep3 =>
    match readSeparator r with
    | (r1, .error e) => (r1, .error e)
    | (r1, .ok s) =>
      (r1, .ok ({ res with
        header := { res.header with segmentTerminator := s } }, []))
  | .hAnsi =>
    match r.read 5 with
    | .error e => (r, .error e)
    | .ok (s, r1) =>
      if s = ['A', 'N', 'S', 'I', ' '] then (r1, .ok (res, []))
      else (r1, .error .parse)
  | .hIin =>
    match r.read 6 with
    | .error e => (r, .error e)
    | .ok (s, r1) =>
      (r1, .ok ({ res with header := { res.header with iin := s } }, []))
  | .hVer =>
    match r.read 2 with
    | .error e => (r, .error e)
    | .ok (s, r1) =>
      (r1, .ok ({ res with
        header := { res.header with aamvaVersion := s } }, []))
  | .hJur =>
    match r.read 2 with
    | .error e => (r, .error e)
    | .ok (s, r1) =>
      (r1, .ok ({ res with
        header := { res.header with jurisdictionVersion := s } }, []))
  | .hNum =>
    match r.read 2 with
    | .error e => (r, .error e)
    | .ok (s, r1) =>
      match jsParseInt s with
      | none => (r1, .error .parse)
      | some n =>
        (r1, .ok ({ res with
          header := { res.header with numEntries := n } }, []))
  | .sds => (r, .ok (res, List.replicate res.header.numEntries.toNat .sd1))
  | .sd1 =>
    match parseSubfileDesignator r with
    | (r1, .error e) => (r1, .error e)
    | (r1, .ok sd) =>
      (r1, .ok ({ res with
        subfileDesignators := res.subfileDesignators ++ [sd] }, []))
  | .sfs => (r, .ok (res, res.subfileDesignators.map .sf))
  | .sf d => (r, sfOut d r.data res)
  | .mrec sfr ty records => (r, mrecOut sfr ty records res)
  | .rec1 sfr ty records => (r, rec1Out sfr ty records res)

/-- State of the newer `_Parser`: the shared `StringIO` reader, the pending
`funcs` queue and the accumulated result. -/
structure EngState where
  reader : StringReader
  funcs : List PFunc
  result : ParseResult
deriving DecidableEq

/-- Outcome of driving `parse()` with bounded fuel: the queue drained
(`done`), an exception propagated to the caller (`threw`), or the fuel ran
out mid-loop (`more`). -/
inductive Outcome where
  | done (st : EngState)
  | threw (e : PErr) (st : EngState)
  | more (st : EngState)
deriving DecidableEq

/-- The `parse()` loop of the newer `_Parser`: take the first pending func,
run it, replace it by its follow-ups (`funcs.splice(0, 1, ...next)`), and
repeat until the queue is empty; a thrown exception leaves `funcs` and
`result` as they were before the failing step. -/
def drive : Nat → EngState → Outcome
  | 0, st => .more st
  | fuel + 1, st =>
    match st.funcs with
    | [] => .done st
    | f :: rest =>
      match runFunc f st.reader st.result with
      | (r1, .error e) => .threw e { st with reader := r1 }
      | (r1, .ok (res1, next)) =>
        drive fuel { reader := r1, funcs := next ++ rest, result := res1 }

/-- The all-empty initial header value used by both parser generations. -/
def emptyHeader : Header :=
  { dataElementSeparator := [], recordSeparator := [],
    segmentTerminator := [], iin := [], aamvaVersion := [],
    jurisdictionVersion := [], numEntries := 0 }

/-- The initial (all-empty) result of the newer `_Parser`. -/
def initResult : ParseResult :=
  { header := emptyHeader, subfileDesignators := [], subfiles := [] }

/-- `makeDLIDParser(reader)` for the newer engine: the three top-level parse
funcs over the given reader. -/
def mkParser (r : StringReader) : EngState :=
  { reader := r, funcs := [.hdr, .sds, .sfs], result := initResult }

/-- A fresh parser over a buffer holding `s`. -/
def initState (s : Str) : EngState :=
  mkParser ⟨s, 0⟩

/-- `reader.append(d)` as seen by the engine state. -/
def addData (st : EngState) (d : Str) : EngState :=
  { st with reader := st.reader.append d }

/-- The engine state left behind by a `parse()` call, whatever its outcome. -/
def driveStateOf : Outcome → EngState
  | .done st => st
  | .threw _ st => st
  | .more st => st

/-- Drive the engine and keep the resulting state. -/
def afterDrive (fuel : Nat) (st : EngState) : EngState :=
  driveStateOf (drive fuel st)

/-- Feed chunks one at a time: append each chunk and drive the engine,
treating a thrown `EOF` as "wait for more data". -/
def feedFrom (fuel : Nat) (st : EngState) (chunks : List Str) : EngState :=
  chunks.foldl (fun s c => afterDrive fuel (addData s c)) st

/-- Fresh parser fed by chunks. -/
def feed (fuel : Nat) (chunks : List Str) : EngState :=
  feedFrom fuel (initState []) chunks

/-!  The older parser generation (first half of `parse.ts`): a mutable
`_Parser` whose step queue holds `() => void` closures mutating the shared
state, driven by `append` / `updateParse`.  `updateParse` catches `EOF`
(returning `true`) and records every other error in the terminal `error`
field.  Its subfile-body scanner is a direct loop (`parseSubfile` /
`parseRecord` of the older generation), embedded below with explicit fuel
for the outer record loop. -/

/-- The value loop of the older `parseRecord` (counter form): identical to
the newer one except that the break condition lists the data element
separator first and the delimiter character is not returned. -/
def valLoopAF : Nat → Header → StringReader → Str →
    Except PErr (Str × StringReader)
  | 0, _, _, _ => .error .eof
  | counter + 1, hdr, copied, val =>
    match copied.peek 1 with
    | .error e => .error e
    | .ok next =>
      if next = hdr.dataElementSeparator ∨ next = hdr.segmentTerminator then
        .ok (val, copied)
      else
        valLoopAF counter hdr { copied with pos := copied.pos + 1 }
          (val ++ next)

/-- The value loop of the older `parseRecord`. -/
def valLoopA (hdr : Header) (copied : StringReader) (val : Str) :
    Except PErr (Str × StringReader) :=
  valLoopAF (copied.avail.toNat + 1) hdr copied val

/-- `parseRecord` of the older parser: read and validate the 3-char key from
a positional copy, accumulate the value, then commit the copy's cursor back
into the shared reader (`reader.pos = copied.pos`) and return the pair.  The
delimiter is not consumed. -/
def parseRecordA (hdr : Header) (reader : StringReader) :
    Except PErr ((Str × Str) × StringReader) :=
  let copied : StringReader := ⟨reader.data, reader.pos⟩
  match copied.read 3 with
  | .error e => .error e
  | .ok (key, copied1) =>
    if ¬ hasUpperRun3 key then .error .parse
    else
      match valLoopA hdr copied1 [] with
      | .error e => .error e
      | .ok (val, copied2) => .ok ((key, val), { reader with pos := copied2.pos })

/-- The scan loop of the older `parseSubfile`: peek one character of the
snapshot; consume it and stop on the segment terminator, consume it and
continue on the data element separator, otherwise parse one record.  `fuel`
bounds the loop (`.ok none` = fuel exhausted, which never happens for the
inputs considered here); `EOF` propagates. -/
def parseSubfileLoopA (fuel : Nat) (hdr : Header) (sfr : StringReader)
    (records : RecMap) : Except PErr (Option RecMap) :=
  match fuel with
  | 0 => .ok none
  | fuel + 1 =>
    match sfr.peek 1 with
    | .error e => .error e
    | .ok next =>
      if next = hdr.segmentTerminator then
        -- sfReader.read(1); break
        .ok (some records)
      else if next = hdr.dataElementSeparator then
        -- sfReader.read(1); continue
        parseSubfileLoopA fuel hdr { sfr with pos := sfr.pos + 1 } records
      else
        match parseRecordA hdr sfr with
        | .error e => .error e
        | .ok ((k, v), sfr1) =>
          parseSubfileLoopA fuel hdr sfr1 (mapSet records k v)

/-- `parseSubfile` of the older parser: snapshot `length` characters from
`offset`, skip the 2-character prefix, and run the scan loop over a fresh
records object. -/
def parseSubfileA (fuel : Nat) (hdr : Header) (sd : SubfileDesignator)
    (reader : StringReader) : Except PErr (Option RecMap) :=
  let copied : StringReader := ⟨reader.data, sd.offset⟩
  match copied.peek sd.length with
  | .error e => .error e
  | .ok snap =>
    match ( StringReader.mk snap 0).read 2 with
    | .error e => .error e
    | .ok (_, sfr) => parseSubfileLoopA fuel hdr sfr []

/-- Defunctionalized step closures of the older `_Parser`'s queue: the nine
header steps, the step that spawns one designator step per declared entry,
the designator step (which pushes its own subfile step), and the subfile
step capturing its designator. -/
inductive StepA where
  | hAt
  | hSep1
  | hSep2
  | hSep3
  | hAnsi
  | hIin
  | hVer
  | hJur
  | hNum
  | spawn
  | desig
  | sub (sd : SubfileDesignator)
deriving DecidableEq

/-- State of the older `_Parser` instance. -/
structure StateA where
  reader : StringReader
  error : Option PErr
  header : Header
  subfileDesignators : List SubfileDesignator
  subfiles : SubfilesMap
  done : Bool
  steps : List StepA
deriving DecidableEq

/-- `readSeparator` of the older parser: same check, but it throws the plain
`ParseError` (the older generation has no `HeaderParseError`). -/
def readSeparatorA (r : StringReader) : StringReader × Except PErr Str :=
  match r.read 1 with
  | .error e => (r, .error e)
  | .ok (s, r1) =>
    if invalidSeparatorTest s then (r1, .error .parse) else (r1, .ok s)

/-- Execute one step closure of the older parser: returns the mutated state
(mutations performed before a throw persist) and, on success, the steps it
pushed onto the end of the queue.  `.ok none` = subfile-scan fuel ran out. -/
def runStepA (sfuel : Nat) (s : StepA) (st : StateA) :
    StateA × Except PErr (Option (List StepA)) :=
  match s with
  | .hAt =>
    match st.reader.read 1 with
    | .error e => (st, .error e)
    | .ok (c, r1) =>
      if c = ['@'] then ({ st with reader := r1 }, .ok (some []))
      else ({ st with reader := r1 }, .error .parse)
  | .hSep1 =>
    match readSeparatorA st.reader with
    | (r1, .error e) => ({ st with reader := r1 }, .error e)
    | (r1, .ok c) =>
      ({ st with
          reader := r1,
          header := { st.header with dataElementSeparator := c } },
       .ok (some []))
  | .hSep2 =>
    match readSeparatorA st.reader with
    | (r1, .error e) => ({ st with reader := r1 }, .error e)
    | (r1, .ok c) =>
      ({ st with
          reader := r1,
          header := { st.header with recordSeparator := c } },
       .ok (some []))
  | .hSep3 =>
    match readSeparatorA st.reader with
    | (r1, .error e) => ({ st with reader := r1 }, .error e)
    | (r1, .ok c) =>
      ({ st with
          reader := r1,
          header := { st.header with segmentTerminator := c } },
       .ok (some []))
  | .hAnsi =>
    match st.reader.read 5 with
    | .error e => (st, .error e)
    | .ok (c, r1) =>
      if c = ['A', 'N', 'S', 'I', ' '] then
        ({ st with reader := r1 }, .ok (some []))
      else ({ st with reader := r1 }, .error .parse)
  | .hIin =>
    match st.reader.read 6 with
    | .error e => (st, .error e)
    | .ok (c, r1) =>
      ({ st with reader := r1, header := { st.header with iin := c } },
       .ok (some []))
  | .hVer =>
    match st.reader.read 2 with
    | .error e => (st, .error e)
    | .ok (c, r1) =>
      ({ st with
          reader := r1,
          header := { st.header with aamvaVersion := c } },
       .ok (some []))
  | .hJur =>
    match st.reader.read 2 with
    | .error e => (st, .error e)
    | .ok (c, r1) =>
      ({ st with
          reader := r1,
          header := { st.header with jurisdictionVersion := c } },
       .ok (some []))
  | .hNum =>
    match st.reader.read 2 with
    | .error e => (st, .error e)
    | .ok (c, r1) =>
      match jsParseInt c with
      | none => ({ st with reader := r1 }, .error .parse)
      | some n =>
        ({ st with
            reader := r1,
            header := { st.header with numEntries := n } },
         .ok (some []))
  | .spawn =>
    (st, .ok (some (List.replicate st.header.numEntries.toNat .desig)))
  | .desig =>
    match parseSubfileDesignator st.reader with
    | (r1, .error e) => ({ st with reader := r1 }, .error e)
    | (r1, .ok sd) =>
      ({ st with
          reader := r1,
          subfileDesignators := st.subfileDesignators ++ [sd] },
       .ok (some [.sub sd]))
  | .sub sd =>
    if sd.type = ['D', 'L'] ∨ sd.type = ['I', 'D'] then
      match parseSubfileA sfuel st.header sd st.reader with
      | .error e => (st, .error e)
      | .ok none => (st, .ok none)
      | .ok (some recs) =>
        ({ st with subfiles := mapSet st.subfiles sd.type recs },
         .ok (some []))
    else
      -- skip: only validate the byte range, then store an empty record set
      match ( StringReader.mk st.reader.data sd.offset).peek sd.length with
      | .error e => (st, .error e)
      | .ok _ =>
        ({ st with subfiles := mapSet st.subfiles sd.type [] },
         .ok (some []))

/-- The `updateParse` loop of the older parser: while not done and no error,
run `updateParseOnce` (first queued step, or set `done` when the queue is
empty; a successful step is removed and its pushed steps stay at the queue's
end).  `EOF` is caught and reported as `true` ("awaiting more data"); any
other error is recorded in the terminal `error` field.  `none` = model fuel
exhausted. -/
def updateParseA (sfuel : Nat) : Nat → StateA → Option (StateA × Bool)
  | 0, _ => none
  | fuel + 1, st =>
    if st.done ∨ st.error.isSome then some (st, false)
    else
      match st.steps with
      | [] => updateParseA sfuel fuel { st with done := true }
      | s :: rest =>
        match runStepA sfuel s st with
        | (st1, .error .eof) => some (st1, true)
        | (st1, .error e) => some ({ st1 with error := some e }, false)
        | (_, .ok none) => none
        | (st1, .ok (some pushed)) =>
          updateParseA sfuel fuel { st1 with steps := rest ++ pushed }

/-- `append(data)` of the older parser: refuse (returning `false`, with no
state change at all) once `error` is set or parsing is `done`; otherwise
append to the buffer and drive `updateParse`. -/
def appendA (fuel sfuel : Nat) (st : StateA) (d : Str) :
    Option (StateA × Bool) :=
  if st.error.isSome ∨ st.done then some (st, false)
  else updateParseA sfuel fuel { st with reader := st.reader.append d }

/-- A sequence of `append` calls of the older parser (keeping only the
state). -/
def appendManyA (fuel sfuel : Nat) (st : StateA) (ds : List Str) :
    Option StateA :=
  ds.foldl
    (fun acc d =>
      match acc with
      | none => none
      | some s1 =>
        match appendA fuel sfuel s1 d with
        | none => none
        | some (s2, _) => some s2)
    (some st)

/-- `makeDLIDParser(initialData)` for the older parser: the nine header step
closures followed by the entry-count spawn closure. -/
def mkParserA (d : Str) : StateA :=
  { reader := ⟨d, 0⟩, error := none, header := emptyHeader,
    subfileDesignators := [], subfiles := [], done := false,
    steps := [.hAt, .hSep1, .hSep2, .hSep3, .hAnsi, .hIin, .hVer, .hJur,
      .hNum, .spawn] }

/-- A 106-character input whose single subfile designator declares type
`"DL"`, offset `0106` and the negative length `-008` (`parseInt("-008") =
-8`, accepted by the designator step).  Characters 98..105 hold the subfile
body `"DLDAQ1\n\r"`; the buffer-relative `substring` clamping makes the
snapshot of this designator depend on how much data has arrived. -/
def c1exData : Str :=
  ("@\n\x1e\rANSI 636000110001DL0106-008").data ++
    List.replicate 67 'x' ++ ("DLDAQ1\n\r").data

def c1exChunk1 : Str := c1exData.take 100

def c1exChunk2 : Str := c1exData.drop 100

/-- The final state of parsing `c1exData` in one shot. -/
def c1exFinal : EngState := afterDrive 40 (initState c1exData)

/-- A minimal complete input (well-formed header, zero entries). -/
def c1wData : Str := ("@\n\x1e\rANSI 636000110000").data

/-- The final state of parsing `c1wData`. -/
def c1wFinal : EngState := afterDrive 13 (initState c1wData)

/-- The C5 example input: header with data element separator LF, record
separator RS, segment terminator CR, one `DL` designator at offset 31 and
length 25, followed by exactly the body `"DLDAQT64235789\nDCSSAMPLE\r"`. -/
def c5exData : Str :=
  ("@\n\x1e\rANSI 636000110001DL00310025DLDAQT64235789\nDCSSAMPLE\r").data

/-- Its one-shot final state. -/
def c5final : EngState := afterDrive 40 (initState c5exData)

/-- The declared subfile body of `c5exData`. -/
def c5body : Str := ("DLDAQT64235789\nDCSSAMPLE\r").data

/-- The header parsed from `c5exData`. -/
def c5hdr : Header :=
  { dataElementSeparator := ['\n'], recordSeparator := ['\x1e'],
    segmentTerminator := ['\r'], iin := ['6', '3', '6', '0', '0', '0'],
    aamvaVersion := ['1', '1'], jurisdictionVersion := ['0', '0'],
    numEntries := 1 }

/-- The engine state right after the subfile step of `c5exData` queued the
record scanner over the snapshot `c5body` (2-character prefix skipped). -/
def c5scan : EngState :=
  ⟨⟨[], 0⟩, [.mrec ⟨c5body, 2⟩ ['D', 'L'] []],
    ⟨c5hdr, [⟨['D', 'L'], 31, 25⟩], []⟩⟩

/-- A well-formed 10-character subfile-designator block: fixed width, with
numeric (non-`NaN`) offset and length fields. -/
def ValidBlock (b : Str) : Prop :=
  b.length = 10 ∧ (jsParseInt (jsSubstring b 2 6)).isSome ∧
    (jsParseInt (jsSubstring b 6 10)).isSome

instance (b : Str) : Decidable (ValidBlock b) := by
  unfold ValidBlock
  infer_instance

/-- The designator parsed from a valid block: 2-character type code, then
the two 4-character numeric fields. -/
def blockToSd (b : Str) : SubfileDesignator :=
  ⟨jsSubstring b 0 2, (jsParseInt (jsSubstring b 2 6)).getD 0,
    (jsParseInt (jsSubstring b 6 10)).getD 0⟩

/-- The C6 bad input for the newer engine: header as in `c5exData`, one
`DL` designator whose declared body `"DL\nDAQ1\r"` carries a data-element
separator right after the 2-character type prefix. -/
def c6BadData : Str :=
  ("@\n\x1e\rANSI 636000110001DL00310008DL\nDAQ1\r").data

/-- The same input without the leading separator (body `"DLDAQ1\r"`). -/
def c6GoodData : Str :=
  ("@\n\x1e\rANSI 636000110001DL00310007DLDAQ1\r").data

/-- One-shot outcome state for `c6BadData`. -/
def c6BadFinal : EngState := afterDrive 40 (initState c6BadData)

/-- One-shot outcome state for `c6GoodData`. -/
def c6GoodFinal : EngState := afterDrive 40 (initState c6GoodData)

/-- A header whose data element separator and segment terminator collide. -/
def hdrEq : Header :=
  { dataElementSeparator := ['\x01'], recordSeparator := ['\x1e'],
    segmentTerminator := ['\x01'], iin := ['6', '3', '6', '0', '0', '0'],
    aamvaVersion := ['1', '1'], jurisdictionVersion := ['0', '0'],
    numEntries := 1 }

/-- A header with distinct LF / CR separators, for the C6 witness. -/
def hdrA : Header :=
  { dataElementSeparator := ['\n'], recordSeparator := ['\x1e'],
    segmentTerminator := ['\r'], iin := ['6', '3', '6', '0', '0', '0'],
    aamvaVersion := ['1', '1'], jurisdictionVersion := ['0', '0'],
    numEntries := 1 }

/-- An engine outcome with the shared reader erased: constructor tag,
thrown error (if any), pending funcs and accumulated result. -/
def stripOutcome : Outcome → (Nat × Option PErr) × List PFunc × ParseResult
  | .done st => ((0, none), st.funcs, st.result)
  | .threw e st => ((1, some e), st.funcs, st.result)
  | .more st => ((2, none), st.funcs, st.result)

/-- Every character of every key and value in the record map occurs in the
snapshot string. -/
def RecsOK (snap : Str) (recs : RecMap) : Prop :=
  ∀ kv ∈ recs, (∀ c ∈ kv.1, c ∈ snap) ∧ (∀ c ∈ kv.2, c ∈ snap)

/-- Invariant of reachable engine states: every subfile step pending in the
queue refers to a designator already recorded in the accumulated result. -/
def FuncsWF (st : EngState) : Prop :=
  ∀ d, PFunc.sf d ∈ st.funcs → d ∈ st.result.subfileDesignators

/-- The engine's head step throws `EOF` on the current buffer contents. -/
def EofStuck (st : EngState) : Prop :=
  ∃ f rest, st.funcs = f :: rest ∧
    (runFunc f st.reader st.result).2 = .error .eof

/-!  ## Basic reader lemmas -/

theorem jsSubstring_exact (pre mid post : Str) :
    jsSubstring (pre ++ mid ++ post) (pre.length : Int)
      ((pre.length : Int) + (mid.length : Int)) = mid := by
  simp only [jsSubstring]
  have hassoc : pre ++ mid ++ post = (pre ++ mid) ++ post := by
    simp [List.append_assoc]
  have hlo :
      (min (min (max (pre.length : Int) 0) ((pre ++ mid ++ post).length : Int))
        (min (max ((pre.length : Int) + (mid.length : Int)) 0)
          ((pre ++ mid ++ post).length : Int))).toNat = pre.length := by
    simp only [List.length_append]
    push_cast
    omega
  have hhi :
      (max (min (max (pre.length : Int) 0) ((pre ++ mid ++ post).length : Int))
        (min (max ((pre.length : Int) + (mid.length : Int)) 0)
          ((pre ++ mid ++ post).length : Int))).toNat
        = pre.length + mid.length := by
    simp only [List.length_append]
    push_cast
    omega
  rw [hlo, hhi, hassoc,
    List.take_append_of_le_length (by simp [List.length_append])]
  rw [show pre.length + mid.length = (pre ++ mid).length by
    simp [List.length_append]]
  rw [List.take_length]
  exact List.drop_left pre mid

theorem peek_exact (pre mid post : Str) (n : Int)
    (hn : n = (mid.length : Int)) :
    StringReader.peek ⟨pre ++ mid ++ post, (pre.length : Int)⟩ n = .ok mid := by
  subst hn
  simp only [StringReader.peek, StringReader.avail]
  rw [if_neg (by simp only [List.length_append]; push_cast; omega)]
  exact congrArg Except.ok (jsSubstring_exact pre mid post)

theorem read_exact (pre mid post : Str) (n : Int)
    (hn : n = (mid.length : Int)) :
    StringReader.read ⟨pre ++ mid ++ post, (pre.length : Int)⟩ n =
      .ok (mid, ⟨pre ++ mid ++ post, (pre.length : Int) + n⟩) := by
  simp only [StringReader.read, peek_exact pre mid post n hn]

theorem readSeparator_err_eof (r : StringReader)
    (h : (readSeparator r).2 = .error .eof) : (readSeparator r).1 = r := by
  simp only [readSeparator] at h ⊢
  rcases hr : r.read 1 with e | ⟨s, r1⟩ <;> simp only [hr] at h ⊢
  all_goals try rfl
  all_goals (split at h <;> simp_all)

theorem psd_reader_err (r : StringReader) (e : PErr)
    (h : (parseSubfileDesignator r).2 = .error e) :
    (parseSubfileDesignator r).1 = r := by
  simp only [parseSubfileDesignator] at h ⊢
  rcases h0 : r.peek 10 with e0 | block <;> simp only [h0] at h ⊢
  all_goals try rfl
  rcases h1 : ( StringReader.mk block 0).read 2 with e1 | ⟨ty, c1⟩ <;>
    simp only [h1] at h ⊢
  all_goals try rfl
  rcases h2 : c1.read 4 with e2 | ⟨offS, c2⟩ <;> simp only [h2] at h ⊢
  all_goals try rfl
  rcases h3 : c2.read 4 with e3 | ⟨lenS, c3⟩ <;> simp only [h3] at h ⊢
  all_goals try rfl
  rcases h4 : jsParseInt offS with _ | off <;>
    rcases h5 : jsParseInt lenS with _ | len <;>
    simp only [h4, h5] at h ⊢
  all_goals try rfl
  rcases h6 : r.read 10 with e6 | ⟨b10, r1⟩ <;> simp only [h6] at h ⊢
  all_goals try rfl
  all_goals simp at h

/-- On any `EOF`, `runFunc` hands back the shared reader unchanged: no step
partially consumes input before finding it insufficient. -/
theorem runFunc_eof_reader (f : PFunc) (r : StringReader) (res : ParseResult)
    (h : (runFunc f r res).2 = .error .eof) :
    (runFunc f r res).1 = r := by
  cases f with
  | hdr => rfl
  | sds => rfl
  | sfs => rfl
  | sf d => rfl
  | mrec sfr ty records => rfl
  | rec1 sfr ty records => rfl
  | hAt =>
    simp only [runFunc] at h ⊢
    rcases hr : r.read 1 with e | ⟨s, r1⟩ <;> simp only [hr] at h ⊢
    all_goals try rfl
    all_goals (split at h <;> simp_all)
  | hSep1 =>
    simp only [runFunc] at h ⊢
    rcases hrs : readSeparator r with ⟨r1, out⟩
    rcases out with e | s
    · simp only [hrs] at h ⊢
      obtain rfl : e = PErr.eof := by simpa using h
      have h2 : (readSeparator r).2 = .error .eof := by rw [hrs]
      have h3 := readSeparator_err_eof r h2
      rw [hrs] at h3
      simpa using h3
    · simp only [hrs] at h ⊢
      simp at h
  | hSep2 =>
    simp only [runFunc] at h ⊢
    rcases hrs : readSeparator r with ⟨r1, out⟩
    rcases out with e | s
    · simp only [hrs] at h ⊢
      obtain rfl : e = PErr.eof := by simpa using h
      have h2 : (readSeparator r).2 = .error .eof := by rw [hrs]
      have h3 := readSeparator_err_eof r h2
      rw [hrs] at h3
      simpa using h3
    · simp only [hrs] at h ⊢
      simp at h
  | hSep3 =>
    simp only [runFunc] at h ⊢
    rcases hrs : readSeparator r with ⟨r1, out⟩
    rcases out with e | s
    · simp only [hrs] at h ⊢
      obtain rfl : e = PErr.eof := by simpa using h
      have h2 : (readSeparator r).2 = .error .eof := by rw [hrs]
      have h3 := readSeparator_err_eof r h2
      rw [hrs] at h3
      simpa using h3
    · simp only [hrs] at h ⊢
      simp at h
  | hAnsi =>
    simp only [runFunc] at h ⊢
    rcases hr : r.read 5 with e | ⟨s, r1⟩ <;> simp only [hr] at h ⊢
    all_goals try rfl
    all_goals (split at h <;> simp_all)
  | hIin =>
    simp only [runFunc] at h ⊢
    rcases hr : r.read 6 with e | ⟨s, r1⟩ <;> simp only [hr] at h ⊢
    all_goals try rfl
    all_goals simp at h
  | hVer =>
    simp only [runFunc] at h ⊢
    rcases hr : r.read 2 with e | ⟨s, r1⟩ <;> simp only [hr] at h ⊢
    all_goals try rfl
    all_goals simp at h
  | hJur =>
    simp only [runFunc] at h ⊢
    rcases hr : r.read 2 with e | ⟨s, r1⟩ <;> simp only [hr] at h ⊢
    all_goals try rfl
    all_goals simp at h
  | hNum =>
    simp only [runFunc] at h ⊢
    rcases hr : r.read 2 with e | ⟨s, r1⟩ <;> simp only [hr] at h ⊢
    all_goals try rfl
    all_goals (rcases hn : jsParseInt s with _ | n <;> simp only [hn] at h <;>
      simp at h)
  | sd1 =>
    simp only [runFunc] at h ⊢
    rcases hp : parseSubfileDesignator r with ⟨r1, out⟩
    rcases out with e | sd
    · simp only [hp] at h ⊢
      have h2 : (parseSubfileDesignator r).2 = .error e := by rw [hp]
      have h3 := psd_reader_err r e h2
      rw [hp] at h3
      simpa using h3
    · simp only [hp] at h ⊢
      simp at h

/-!  ## Step-level claims -/

/-- C10: when the record scanner's `maybeParseRecord` step reaches the end of
the declared length-bounded snapshot (its one-character peek hits `EOF`,
i.e. it stands at a record boundary with no segment terminator read), the
subfile is committed as complete with all records parsed so far and no error
is raised. -/
theorem c10_eof_at_boundary_commits (sfr : StringReader) (ty : Str)
    (recs : RecMap) (r : StringReader) (res : ParseResult)
    (h : (sfr.data.length : Int) - sfr.pos < 1) :
    runFunc (.mrec sfr ty recs) r res =
      (r, .ok ({ res with subfiles := mapSet res.subfiles ty recs }, [])) := by
  have hpk : sfr.peek 1 = .error .eof := by
    simp only [StringReader.peek, StringReader.avail]
    rw [if_pos (by omega)]
  simp only [runFunc, mrecOut, hpk]

theorem c10_witness :
    ((((['D', 'L'] : Str).length : Int) - 2 < 1) ∧
      runFunc (.mrec ⟨['D', 'L'], 2⟩ ['D', 'L'] [(['D', 'A', 'Q'], ['1'])])
          ⟨[], 0⟩ initResult =
        (⟨[], 0⟩, .ok ({ initResult with
          subfiles := mapSet initResult.subfiles ['D', 'L']
            [(['D', 'A', 'Q'], ['1'])] }, []))) :=
  ⟨by decide,
    c10_eof_at_boundary_commits ⟨['D', 'L'], 2⟩ ['D', 'L']
      [(['D', 'A', 'Q'], ['1'])] ⟨[], 0⟩ initResult (by decide)⟩

/-- C8: a subfile step for a designator whose type is neither `"DL"` nor
`"ID"` raises no error when the declared byte range lies within the buffer
(leaving the result — hence the designator list and the subfiles map —
completely unchanged, so the type is not added as a subfiles key), and
reports only the recoverable `EOF` while the range is not yet present. -/
theorem c8_unrecognized_type_tolerance (d : SubfileDesignator)
    (r : StringReader) (res : ParseResult)
    (ht1 : d.type ≠ ['D', 'L']) (ht2 : d.type ≠ ['I', 'D'])
    (ho : 0 ≤ d.offset) (hl : 0 ≤ d.length) :
    ((d.offset + d.length ≤ (r.data.length : Int) →
        runFunc (.sf d) r res = (r, .ok (res, []))) ∧
      ((r.data.length : Int) < d.offset + d.length →
        runFunc (.sf d) r res = (r, .error .eof))) := by
  constructor
  · intro hin
    have hpk : StringReader.peek ⟨r.data, d.offset⟩ d.length =
        .ok (jsSubstring r.data d.offset (d.offset + d.length)) := by
      simp only [StringReader.peek, StringReader.avail]
      rw [if_neg (by omega)]
    simp only [runFunc, sfOut, hpk]
    rw [if_neg (by simp [ht1, ht2])]
  · intro hout
    have hpk : StringReader.peek ⟨r.data, d.offset⟩ d.length =
        .error .eof := by
      simp only [StringReader.peek, StringReader.avail]
      rw [if_pos (by omega)]
    simp only [runFunc, sfOut, hpk]

theorem c8_witness :
    ((['Z', 'V'] : Str) ≠ ['D', 'L'] ∧ (['Z', 'V'] : Str) ≠ ['I', 'D'] ∧
      (0 : Int) ≤ 0 ∧ (0 : Int) ≤ 2 ∧
      ((0 : Int) + 2 ≤ (((['Z', 'V'] : Str)).length : Int) →
        runFunc (.sf ⟨['Z', 'V'], 0, 2⟩) ⟨['Z', 'V'], 0⟩ initResult =
          (⟨['Z', 'V'], 0⟩, .ok (initResult, []))) ∧
      ((((['Z', 'V'] : Str).length : Int) < 0 + 2 →
        runFunc (.sf ⟨['Z', 'V'], 0, 2⟩) ⟨['Z', 'V'], 0⟩ initResult =
          (⟨['Z', 'V'], 0⟩, .error .eof)))) :=
  ⟨by decide, by decide, by decide, by decide,
    (c8_unrecognized_type_tolerance ⟨['Z', 'V'], 0, 2⟩ ⟨['Z', 'V'], 0⟩
        initResult (by decide) (by decide) (by decide) (by decide)).1,
    (c8_unrecognized_type_tolerance ⟨['Z', 'V'], 0, 2⟩ ⟨['Z', 'V'], 0⟩
        initResult (by decide) (by decide) (by decide) (by decide)).2⟩

theorem psd_ok_reader (r r1 : StringReader) (sd : SubfileDesignator)
    (h : parseSubfileDesignator r = (r1, .ok sd)) :
    r1 = ⟨r.data, r.pos + 10⟩ := by
  simp only [parseSubfileDesignator] at h
  rcases h0 : r.peek 10 with e0 | block <;> simp only [h0] at h
  · simp at h
  · rcases hb1 : ( StringReader.mk block 0).read 2 with e1 | ⟨ty, c1⟩ <;>
      simp only [hb1] at h
    · simp at h
    · rcases hb2 : c1.read 4 with e2 | ⟨offS, c2⟩ <;> simp only [hb2] at h
      · simp at h
      · rcases hb3 : c2.read 4 with e3 | ⟨lenS, c3⟩ <;> simp only [hb3] at h
        · simp at h
        · rcases hb4 : jsParseInt offS with _ | off <;>
            rcases hb5 : jsParseInt lenS with _ | len <;>
            simp only [hb4, hb5] at h
          · simp at h
          · simp at h
          · simp at h
          · rcases hb6 : r.read 10 with e6 | ⟨b10, r3⟩ <;>
              simp only [hb6] at h
            · simp at h
            · have hfst : r3 = r1 := by
                have := congrArg Prod.fst h
                simpa using this
              simp only [StringReader.read] at hb6
              rcases hb7 : r.peek 10 with e7 | s7 <;> simp only [hb7] at hb6
              · simp at hb6
              · have hsnd : ({ r with pos := r.pos + 10 } : StringReader)
                    = r3 := by
                  have := congrArg (fun x =>
                    match x with
                    | Except.ok (p : Str × StringReader) => p.2
                    | Except.error _ => r) hb6
                  simpa using this
                rw [← hfst, ← hsnd]

/-- C2: when the first pending step raises `EOF` (insufficient data), one
drive of the engine leaves the whole state untouched — the accumulated
result is unchanged, the failed step is still first in the queue, and the
buffer cursor has not moved — so a later drive re-executes exactly that step
from the same cursor position; moreover a subfile-designator step either
consumes exactly 10 characters on success or consumes nothing on `EOF`. -/
theorem c2_step_atomicity (st : EngState) (f : PFunc) (rest : List PFunc)
    (h1 : st.funcs = f :: rest)
    (h2 : (runFunc f st.reader st.result).2 = .error .eof) :
    ((runFunc f st.reader st.result).1 = st.reader ∧
      drive 1 st = .threw .eof st ∧
      (∀ (r : StringReader) (res : ParseResult) (r1 : StringReader)
          (res1 : ParseResult) (next : List PFunc),
          runFunc .sd1 r res = (r1, .ok (res1, next)) →
          r1 = ⟨r.data, r.pos + 10⟩) ∧
      (∀ (r : StringReader) (res : ParseResult),
          (runFunc .sd1 r res).2 = .error .eof →
          (runFunc .sd1 r res).1 = r)) := by
  refine ⟨runFunc_eof_reader f st.reader st.result h2, ?_, ?_, ?_⟩
  · have hr := runFunc_eof_reader f st.reader st.result h2
    simp only [drive, h1]
    rcases hrf : runFunc f st.reader st.result with ⟨r1, out⟩
    rw [hrf] at h2 hr
    simp only at h2 hr
    subst h2
    simp only [hr]
    rw [← h1]
  · intro r res r1 res1 next hok
    simp only [runFunc] at hok
    rcases hp : parseSubfileDesignator r with ⟨r2, out⟩
    rcases out with e | sd <;> simp only [hp] at hok
    · simp at hok
    · have h12 : r2 = r1 := by
        have := congrArg Prod.fst hok
        simpa using this
      rw [← h12]
      exact psd_ok_reader r r2 sd hp
  · intro r res h
    exact runFunc_eof_reader .sd1 r res h

theorem c2_witness :
    ((initState ['@']).funcs = PFunc.hdr :: [PFunc.sds, PFunc.sfs] ∧
      (runFunc .hAt (⟨[], 0⟩ : StringReader) initResult).2 = .error .eof ∧
      drive 1 (⟨⟨[], 0⟩, [.hAt], initResult⟩ : EngState) =
        .threw .eof ⟨⟨[], 0⟩, [.hAt], initResult⟩) :=
  ⟨by decide, by decide,
    (c2_step_atomicity ⟨⟨[], 0⟩, [.hAt], initResult⟩ .hAt [] (by decide)
      (by decide)).2.1⟩

/-!  ## Drive bookkeeping lemmas -/

theorem drive_more_compose (k : Nat) :
    ∀ (m : Nat) (st st1 : EngState), drive k st = .more st1 →
      drive (k + m) st = drive m st1 := by
  induction k with
  | zero =>
    intro m st st1 h
    simp only [drive] at h
    cases h
    simp
  | succ k ih =>
    intro m st st1 h
    rw [show k + 1 + m = (k + m) + 1 by omega]
    simp only [drive] at h ⊢
    rcases hfu : st.funcs with _ | ⟨f, rest⟩ <;> simp only [hfu] at h ⊢
    · cases h
    · rcases hrf : runFunc f st.reader st.result with ⟨r1, out⟩
      rcases out with e | ⟨res1, next⟩ <;> simp only [hrf] at h ⊢
      · cases h
      · exact ih m _ st1 h

theorem drive_done_mono (n : Nat) :
    ∀ (st F : EngState), drive n st = .done F →
      ∀ j, drive (n + j) st = .done F := by
  induction n with
  | zero =>
    intro st F h
    simp [drive] at h
  | succ n ih =>
    intro st F h j
    rw [show n + 1 + j = (n + j) + 1 by omega]
    simp only [drive] at h ⊢
    rcases hfu : st.funcs with _ | ⟨f, rest⟩ <;> simp only [hfu] at h ⊢
    · exact h
    · rcases hrf : runFunc f st.reader st.result with ⟨r1, out⟩
      rcases out with e | ⟨res1, next⟩ <;> simp only [hrf] at h ⊢
      · cases h
      · exact ih _ F h j

theorem drive_threw_mono (n : Nat) :
    ∀ (st st1 : EngState) (e : PErr), drive n st = .threw e st1 →
      ∀ j, drive (n + j) st = .threw e st1 := by
  induction n with
  | zero =>
    intro st st1 e h
    simp [drive] at h
  | succ n ih =>
    intro st st1 e h j
    rw [show n + 1 + j = (n + j) + 1 by omega]
    simp only [drive] at h ⊢
    rcases hfu : st.funcs with _ | ⟨f, rest⟩ <;> simp only [hfu] at h ⊢
    · cases h
    · rcases hrf : runFunc f st.reader st.result with ⟨r1, out⟩
      rcases out with e' | ⟨res1, next⟩ <;> simp only [hrf] at h ⊢
      · exact h
      · exact ih _ st1 e h j

theorem drive_done_funcs (n : Nat) :
    ∀ (st F : EngState), drive n st = .done F → F.funcs = [] := by
  induction n with
  | zero =>
    intro st F h
    simp [drive] at h
  | succ n ih =>
    intro st F h
    simp only [drive] at h
    rcases hfu : st.funcs with _ | ⟨f, rest⟩ <;> simp only [hfu] at h
    · cases h
      exact hfu
    · rcases hrf : runFunc f st.reader st.result with ⟨r1, out⟩
      rcases out with e | ⟨res1, next⟩ <;> simp only [hrf] at h
      · cases h
      · exact ih _ F h

/-- A run ending in a thrown `EOF` stops at a state whose head step throws
`EOF`, reached after fewer iterations than the fuel spent. -/
theorem drive_threw_eof_reached (n : Nat) :
    ∀ (st st1 : EngState), drive n st = .threw .eof st1 →
      (∃ k, k < n ∧ drive k st = .more st1) ∧
      (∃ f rest, st1.funcs = f :: rest ∧
        (runFunc f st1.reader st1.result).2 = .error .eof) := by
  induction n with
  | zero =>
    intro st st1 h
    simp [drive] at h
  | succ n ih =>
    intro st st1 h
    simp only [drive] at h
    rcases hfu : st.funcs with _ | ⟨f, rest⟩ <;> simp only [hfu] at h
    · cases h
    · rcases hrf : runFunc f st.reader st.result with ⟨r1, out⟩
      rcases out with e | ⟨res1, next⟩ <;> simp only [hrf] at h
      · obtain ⟨rfl, h2⟩ :
            PErr.eof = e ∧
              ({ reader := r1, funcs := f :: rest,
                 result := st.result } : EngState) = st1 := by
          cases h
          exact ⟨rfl, rfl⟩
        have hr1 : r1 = st.reader := by
          have := runFunc_eof_reader f st.reader st.result (by rw [hrf])
          rw [hrf] at this
          exact this
        have hst : st1 = st := by
          rw [← h2, hr1, ← hfu]
        subst hst
        refine ⟨⟨0, by omega, by simp [drive]⟩, f, rest, hfu, by rw [hrf]⟩
      · obtain ⟨⟨k, hk, hm⟩, hstuck⟩ := ih _ st1 h
        refine ⟨⟨k + 1, by omega, ?_⟩, hstuck⟩
        simp only [drive, hfu, hrf]
        exact hm

/-- Once a run finishes with `done`, a `more` outcome can only occur at
fewer iterations. -/
theorem drive_more_lt_of_done (n : Nat) :
    ∀ (st F st1 : EngState) (k : Nat), drive n st = .done F →
      drive k st = .more st1 → k < n := by
  induction n with
  | zero =>
    intro st F st1 k h
    simp [drive] at h
  | succ n ih =>
    intro st F st1 k hdone hmore
    match k with
    | 0 => omega
    | k + 1 =>
      simp only [drive] at hdone hmore
      rcases hfu : st.funcs with _ | ⟨f, rest⟩ <;>
        simp only [hfu] at hdone hmore
      · cases hmore
      · rcases hrf : runFunc f st.reader st.result with ⟨r1, out⟩
        rcases out with e | ⟨res1, next⟩ <;> simp only [hrf] at hdone hmore
        · cases hdone
        · have := ih _ F st1 k hdone hmore
          omega

theorem drive_more_done (k n : Nat) (st st1 F : EngState)
    (hm : drive k st = .more st1) (hd : drive n st = .done F) :
    drive (n - k) st1 = .done F := by
  have hk : k < n := drive_more_lt_of_done n st F st1 k hd hm
  have := drive_more_compose k (n - k) st st1 hm
  rw [show k + (n - k) = n by omega] at this
  rw [← this]
  exact hd

theorem addData_assoc (st : EngState) (a b : Str) :
    addData (addData st a) b = addData st (a ++ b) := by
  simp [addData, StringReader.append, List.append_assoc]

theorem addData_nil (st : EngState) : addData st [] = st := by
  simp [addData, StringReader.append]

/-!  ## Append-stability of the buffer operations -/

theorem peek_err_eof (r : StringReader) (n : Int) (e : PErr)
    (h : r.peek n = .error e) : e = .eof := by
  simp only [StringReader.peek] at h
  split at h
  · cases h
    rfl
  · cases h

theorem read_err_eof (r : StringReader) (n : Int) (e : PErr)
    (h : r.read n = .error e) : e = .eof := by
  simp only [StringReader.read] at h
  rcases hp : r.peek n with e' | s' <;> simp only [hp] at h
  · cases h
    exact peek_err_eof r n e hp
  · cases h

/-- `substring` sees no difference from data appended past both clamped
indices. -/
theorem jsSubstring_append (d e : Str) (a b : Int)
    (ha : a ≤ (d.length : Int)) (hb : b ≤ (d.length : Int)) :
    jsSubstring (d ++ e) a b = jsSubstring d a b := by
  simp only [jsSubstring]
  have hle : (d.length : Int) ≤ ((d ++ e).length : Int) := by
    simp [List.length_append]
  set L2 := ((d ++ e).length : Int) with hL2
  set L1 := (d.length : Int) with hL1
  have e1 : min (max a 0) L2 = min (max a 0) L1 := by omega
  have e2 : min (max b 0) L2 = min (max b 0) L1 := by omega
  rw [e1, e2]
  rw [List.take_append_of_le_length (by omega)]

theorem peek_append_ok (r : StringReader) (n : Int) (s e : Str)
    (hn : 0 ≤ n) (h : r.peek n = .ok s) :
    StringReader.peek ⟨r.data ++ e, r.pos⟩ n = .ok s := by
  simp only [StringReader.peek, StringReader.avail] at h ⊢
  split at h
  · cases h
  · rename_i hgt
    rw [if_neg (by
      simp only [List.length_append]
      push_cast at hgt ⊢
      omega)]
    rw [jsSubstring_append r.data e r.pos (r.pos + n) (by omega) (by omega)]
    exact h

theorem read_ok_dest (r : StringReader) (n : Int) (s : Str)
    (r1 : StringReader) (h : r.read n = .ok (s, r1)) :
    r.peek n = .ok s ∧ r1 = { r with pos := r.pos + n } := by
  simp only [StringReader.read] at h
  rcases hp : r.peek n with e' | s' <;> simp only [hp] at h
  · cases h
  · obtain ⟨rfl, hr⟩ :
        s' = s ∧ ({ r with pos := r.pos + n } : StringReader) = r1 := by
      constructor
      · have := congrArg (fun x =>
          match x with
          | Except.ok (p : Str × StringReader) => p.1
          | Except.error _ => s') h
        simpa using this
      · have := congrArg (fun x =>
          match x with
          | Except.ok (p : Str × StringReader) => p.2
          | Except.error _ => r) h
        simpa using this
    exact ⟨rfl, hr.symm⟩

theorem read_append_ok (r : StringReader) (n : Int) (s : Str)
    (r1 : StringReader) (e : Str) (hn : 0 ≤ n)
    (h : r.read n = .ok (s, r1)) :
    StringReader.read ⟨r.data ++ e, r.pos⟩ n =
      .ok (s, ⟨r.data ++ e, r1.pos⟩) := by
  obtain ⟨hp, hr1⟩ := read_ok_dest r n s r1 h
  simp only [StringReader.read, peek_append_ok r n s e hn hp]
  rw [hr1]

theorem pairEq {A B : Type} {x1 x2 : A} {y1 y2 : B}
    (h : (x1, y1) = (x2, y2)) : x1 = x2 ∧ y1 = y2 :=
  ⟨congrArg Prod.fst h, congrArg Prod.snd h⟩

theorem readSeparator_ok_dest (r r1 : StringReader) (s : Str)
    (h : readSeparator r = (r1, .ok s)) :
    r.read 1 = .ok (s, r1) ∧ invalidSeparatorTest s = false := by
  simp only [readSeparator] at h
  rcases hr : r.read 1 with er | ⟨s0, r2⟩ <;> simp only [hr] at h
  · simp at h
  · by_cases hv : invalidSeparatorTest s0
    · rw [if_pos hv] at h
      obtain ⟨h1, h2⟩ := pairEq h
      simp at h2
    · rw [if_neg hv] at h
      obtain ⟨h1, h2⟩ := pairEq h
      obtain rfl := Except.ok.inj h2
      subst h1
      simpa using hv

theorem readSeparator_append (r r1 : StringReader) (s e : Str)
    (h : readSeparator r = (r1, .ok s)) :
    readSeparator ⟨r.data ++ e, r.pos⟩ = (⟨r.data ++ e, r1.pos⟩, .ok s) := by
  obtain ⟨hr, hv⟩ := readSeparator_ok_dest r r1 s h
  simp only [readSeparator, read_append_ok r 1 s r1 e (by omega) hr, hv,
    Bool.false_eq_true, if_false]

theorem readSeparator_err_dest (r r2 : StringReader) (er : PErr)
    (hne : er ≠ .eof) (h : readSeparator r = (r2, .error er)) :
    ∃ s, r.read 1 = .ok (s, r2) ∧ invalidSeparatorTest s = true ∧
      er = .headerParse := by
  simp only [readSeparator] at h
  rcases hr : r.read 1 with er0 | ⟨s0, r3⟩ <;> simp only [hr] at h
  · obtain ⟨h1, h2⟩ := pairEq h
    have := read_err_eof r 1 er0 hr
    subst this
    cases h2
    exact absurd rfl hne
  · by_cases hv : invalidSeparatorTest s0
    · rw [if_pos hv] at h
      obtain ⟨h1, h2⟩ := pairEq h
      cases h2
      subst h1
      exact ⟨s0, rfl, hv, rfl⟩
    · rw [if_neg hv] at h
      obtain ⟨h1, h2⟩ := pairEq h
      simp at h2

theorem psd_append (r r1 : StringReader) (sd : SubfileDesignator) (e : Str)
    (h : parseSubfileDesignator r = (r1, .ok sd)) :
    parseSubfileDesignator ⟨r.data ++ e, r.pos⟩ =
      (⟨r.data ++ e, r1.pos⟩, .ok sd) := by
  simp only [parseSubfileDesignator] at h ⊢
  rcases h0 : r.peek 10 with e0 | block <;> simp only [h0] at h
  · simp at h
  · rw [peek_append_ok r 10 block e (by omega) h0]
    rcases hb1 : ( StringReader.mk block 0).read 2 with e1 | ⟨ty, c1⟩ <;>
      simp only [hb1] at h ⊢
    · simp at h
    · rcases hb2 : c1.read 4 with e2 | ⟨offS, c2⟩ <;> simp only [hb2] at h ⊢
      · simp at h
      · rcases hb3 : c2.read 4 with e3 | ⟨lenS, c3⟩ <;>
          simp only [hb3] at h ⊢
        · simp at h
        · rcases hb4 : jsParseInt offS with _ | off <;>
            rcases hb5 : jsParseInt lenS with _ | len <;>
            simp only [hb4, hb5] at h ⊢
          · simp at h
          · simp at h
          · simp at h
          · rcases hb6 : r.read 10 with e6 | ⟨b10, r3⟩ <;>
              simp only [hb6] at h
            · simp at h
            · rw [read_append_ok r 10 b10 r3 e (by omega) hb6]
              obtain ⟨h1, h2⟩ := pairEq h
              rw [h1, Except.ok.inj h2]

theorem psd_err_dest (r r2 : StringReader) (er : PErr) (e : Str)
    (hne : er ≠ .eof) (h : parseSubfileDesignator r = (r2, .error er)) :
    (parseSubfileDesignator ⟨r.data ++ e, r.pos⟩).2 = .error er := by
  simp only [parseSubfileDesignator] at h ⊢
  rcases h0 : r.peek 10 with e0 | block <;> simp only [h0] at h
  · obtain ⟨h1, h2⟩ := pairEq h
    cases h2
    exact absurd (peek_err_eof r 10 er h0) hne
  · rw [peek_append_ok r 10 block e (by omega) h0]
    rcases hb1 : ( StringReader.mk block 0).read 2 with e1 | ⟨ty, c1⟩ <;>
      simp only [hb1] at h ⊢
    · obtain ⟨h1, h2⟩ := pairEq h
      cases h2
      exact absurd (read_err_eof _ 2 er hb1) hne
    · rcases hb2 : c1.read 4 with e2 | ⟨offS, c2⟩ <;> simp only [hb2] at h ⊢
      · obtain ⟨h1, h2⟩ := pairEq h
        cases h2
        exact absurd (read_err_eof _ 4 er hb2) hne
      · rcases hb3 : c2.read 4 with e3 | ⟨lenS, c3⟩ <;>
          simp only [hb3] at h ⊢
        · obtain ⟨h1, h2⟩ := pairEq h
          cases h2
          exact absurd (read_err_eof _ 4 er hb3) hne
        · rcases hb4 : jsParseInt offS with _ | off <;>
            rcases hb5 : jsParseInt lenS with _ | len <;>
            simp only [hb4, hb5] at h ⊢
          · obtain ⟨h1, h2⟩ := pairEq h
            cases h2
            rfl
          · obtain ⟨h1, h2⟩ := pairEq h
            cases h2
            rfl
          · obtain ⟨h1, h2⟩ := pairEq h
            cases h2
            rfl
          · rcases hb6 : r.read 10 with e6 | ⟨b10, r3⟩ <;>
              simp only [hb6] at h
            · obtain ⟨h1, h2⟩ := pairEq h
              cases h2
              exact absurd (read_err_eof _ 10 er hb6) hne
            · obtain ⟨h1, h2⟩ := pairEq h
              simp at h2

theorem sfOut_append (d : SubfileDesignator) (data e : Str)
    (res res1 : ParseResult) (next : List PFunc) (hl : 0 ≤ d.length)
    (h : sfOut d data res = .ok (res1, next)) :
    sfOut d (data ++ e) res = .ok (res1, next) := by
  simp only [sfOut] at h ⊢
  rcases h0 : StringReader.peek ⟨data, d.offset⟩ d.length with e0 | snap <;>
    simp only [h0] at h
  · simp at h
  · rw [peek_append_ok ⟨data, d.offset⟩ d.length snap e hl h0]
    exact h

theorem sfOut_err_eof (d : SubfileDesignator) (data : Str)
    (res : ParseResult) (er : PErr) (h : sfOut d data res = .error er) :
    er = .eof := by
  simp only [sfOut] at h
  rcases h0 : StringReader.peek ⟨data, d.offset⟩ d.length with e0 | snap <;>
    simp only [h0] at h
  · cases h
    exact peek_err_eof _ _ _ h0
  · split at h
    · rcases h1 : ( StringReader.mk snap 0).read 2 with e1 | ⟨pre, sfr⟩ <;>
        simp only [h1] at h
      · cases h
        exact read_err_eof _ 2 _ h1
      · simp at h
    · simp at h

/-- A successful step behaves identically, up to the extended backing
string, after more data is appended to the shared buffer (for a subfile
step this needs the designator's declared length to be non-negative), and a
successful step never changes the backing string. -/
theorem runFunc_append (f : PFunc) (r r1 : StringReader)
    (res res1 : ParseResult) (next : List PFunc) (e : Str)
    (hsf : ∀ d, f = PFunc.sf d → 0 ≤ d.length)
    (h : runFunc f r res = (r1, .ok (res1, next))) :
    runFunc f ⟨r.data ++ e, r.pos⟩ res =
      (⟨r.data ++ e, r1.pos⟩, .ok (res1, next)) ∧ r1.data = r.data := by
  cases f with
  | hdr =>
    simp only [runFunc] at h ⊢
    obtain ⟨h1, h2⟩ := pairEq h
    obtain ⟨h3, h4⟩ := pairEq (Except.ok.inj h2)
    subst h1 h3 h4
    exact ⟨rfl, rfl⟩
  | sds =>
    simp only [runFunc] at h ⊢
    obtain ⟨h1, h2⟩ := pairEq h
    obtain ⟨h3, h4⟩ := pairEq (Except.ok.inj h2)
    subst h1 h3 h4
    exact ⟨rfl, rfl⟩
  | sfs =>
    simp only [runFunc] at h ⊢
    obtain ⟨h1, h2⟩ := pairEq h
    obtain ⟨h3, h4⟩ := pairEq (Except.ok.inj h2)
    subst h1 h3 h4
    exact ⟨rfl, rfl⟩
  | hAt =>
    simp only [runFunc] at h ⊢
    rcases hr : r.read 1 with er | ⟨s, r2⟩ <;> simp only [hr] at h
    · simp at h
    · by_cases hs : s = ['@']
      · rw [if_pos hs] at h
        obtain ⟨h1, h2⟩ := pairEq h
        obtain ⟨h3, h4⟩ := pairEq (Except.ok.inj h2)
        subst h1 h3 h4
        obtain ⟨hp, hr2⟩ := read_ok_dest r 1 s r2 hr
        rw [read_append_ok r 1 s r2 e (by omega) hr]
        refine ⟨?_, by rw [hr2]⟩
        simp [hs]
      · rw [if_neg hs] at h
        obtain ⟨h1, h2⟩ := pairEq h
        simp at h2
  | hSep1 =>
    simp only [runFunc] at h ⊢
    rcases hrs : readSeparator r with ⟨r2, out⟩
    rcases out with er | s <;> simp only [hrs] at h
    · simp at h
    · obtain ⟨h1, h2⟩ := pairEq h
      obtain ⟨h3, h4⟩ := pairEq (Except.ok.inj h2)
      subst h1 h3 h4
      rw [readSeparator_append r r2 s e hrs]
      refine ⟨rfl, ?_⟩
      obtain ⟨hr, hv⟩ := readSeparator_ok_dest r r2 s hrs
      obtain ⟨hp, hr2⟩ := read_ok_dest r 1 s r2 hr
      rw [hr2]
  | hSep2 =>
    simp only [runFunc] at h ⊢
    rcases hrs : readSeparator r with ⟨r2, out⟩
    rcases out with er | s <;> simp only [hrs] at h
    · simp at h
    · obtain ⟨h1, h2⟩ := pairEq h
      obtain ⟨h3, h4⟩ := pairEq (Except.ok.inj h2)
      subst h1 h3 h4
      rw [readSeparator_append r r2 s e hrs]
      refine ⟨rfl, ?_⟩
      obtain ⟨hr, hv⟩ := readSeparator_ok_dest r r2 s hrs
      obtain ⟨hp, hr2⟩ := read_ok_dest r 1 s r2 hr
      rw [hr2]
  | hSep3 =>
    simp only [runFunc] at h ⊢
    rcases hrs : readSeparator r with ⟨r2, out⟩
    rcases out with er | s <;> simp only [hrs] at h
    · simp at h
    · obtain ⟨h1, h2⟩ := pairEq h
      obtain ⟨h3, h4⟩ := pairEq (Except.ok.inj h2)
      subst h1 h3 h4
      rw [readSeparator_append r r2 s e hrs]
      refine ⟨rfl, ?_⟩
      obtain ⟨hr, hv⟩ := readSeparator_ok_dest r r2 s hrs
      obtain ⟨hp, hr2⟩ := read_ok_dest r 1 s r2 hr
      rw [hr2]
  | hAnsi =>
    simp only [runFunc] at h ⊢
    rcases hr : r.read 5 with er | ⟨s, r2⟩ <;> simp only [hr] at h
    · simp at h
    · by_cases hs : s = ['A', 'N', 'S', 'I', ' ']
      · rw [if_pos hs] at h
        obtain ⟨h1, h2⟩ := pairEq h
        obtain ⟨h3, h4⟩ := pairEq (Except.ok.inj h2)
        subst h1 h3 h4
        obtain ⟨hp, hr2⟩ := read_ok_dest r 5 s r2 hr
        rw [read_append_ok r 5 s r2 e (by omega) hr]
        refine ⟨?_, by rw [hr2]⟩
        simp [hs]
      · rw [if_neg hs] at h
        obtain ⟨h1, h2⟩ := pairEq h
        simp at h2
  | hIin =>
    simp only [runFunc] at h ⊢
    rcases hr : r.read 6 with er | ⟨s, r2⟩ <;> simp only [hr] at h
    · simp at h
    · obtain ⟨h1, h2⟩ := pairEq h
      obtain ⟨h3, h4⟩ := pairEq (Except.ok.inj h2)
      subst h1 h3 h4
      obtain ⟨hp, hr2⟩ := read_ok_dest r 6 s r2 hr
      rw [read_append_ok r 6 s r2 e (by omega) hr]
      exact ⟨rfl, by rw [hr2]⟩
  | hVer =>
    simp only [runFunc] at h ⊢
    rcases hr : r.read 2 with er | ⟨s, r2⟩ <;> simp only [hr] at h
    · simp at h
    · obtain ⟨h1, h2⟩ := pairEq h
      obtain ⟨h3, h4⟩ := pairEq (Except.ok.inj h2)
      subst h1 h3 h4
      obtain ⟨hp, hr2⟩ := read_ok_dest r 2 s r2 hr
      rw [read_append_ok r 2 s r2 e (by omega) hr]
      exact ⟨rfl, by rw [hr2]⟩
  | hJur =>
    simp only [runFunc] at h ⊢
    rcases hr : r.read 2 with er | ⟨s, r2⟩ <;> simp only [hr] at h
    · simp at h
    · obtain ⟨h1, h2⟩ := pairEq h
      obtain ⟨h3, h4⟩ := pairEq (Except.ok.inj h2)
      subst h1 h3 h4
      obtain ⟨hp, hr2⟩ := read_ok_dest r 2 s r2 hr
      rw [read_append_ok r 2 s r2 e (by omega) hr]
      exact ⟨rfl, by rw [hr2]⟩
  | hNum =>
    simp only [runFunc] at h ⊢
    rcases hr : r.read 2 with er | ⟨s, r2⟩ <;> simp only [hr] at h
    · simp at h
    · rcases hn : jsParseInt s with _ | n <;> simp only [hn] at h
      · simp at h
      · obtain ⟨h1, h2⟩ := pairEq h
        obtain ⟨h3, h4⟩ := pairEq (Except.ok.inj h2)
        subst h1 h3 h4
        obtain ⟨hp, hr2⟩ := read_ok_dest r 2 s r2 hr
        rw [read_append_ok r 2 s r2 e (by omega) hr]
        refine ⟨?_, by rw [hr2]⟩
        simp [hn]
  | sd1 =>
    simp only [runFunc] at h ⊢
    rcases hp : parseSubfileDesignator r with ⟨r2, out⟩
    rcases out with er | sd <;> simp only [hp] at h
    · simp at h
    · obtain ⟨h1, h2⟩ := pairEq h
      obtain ⟨h3, h4⟩ := pairEq (Except.ok.inj h2)
      subst h1 h3 h4
      rw [psd_append r r2 sd e hp]
      refine ⟨rfl, ?_⟩
      rw [psd_ok_reader r r2 sd hp]
  | sf d =>
    simp only [runFunc] at h ⊢
    obtain ⟨h1, h2⟩ := pairEq h
    subst h1
    rw [sfOut_append d r.data e res res1 next (hsf d rfl) h2]
    exact ⟨rfl, rfl⟩
  | mrec sfr ty records =>
    simp only [runFunc] at h ⊢
    obtain ⟨h1, h2⟩ := pairEq h
    subst h1
    rw [h2]
    exact ⟨rfl, rfl⟩
  | rec1 sfr ty records =>
    simp only [runFunc] at h ⊢
    obtain ⟨h1, h2⟩ := pairEq h
    subst h1
    rw [h2]
    exact ⟨rfl, rfl⟩

/-- A step failing with a non-`EOF` (terminal) error fails identically after
more data is appended: the error decision is made from characters already
present. -/
theorem runFunc_append_err (f : PFunc) (r r2 : StringReader)
    (res : ParseResult) (er : PErr) (e : Str) (hne : er ≠ .eof)
    (h : runFunc f r res = (r2, .error er)) :
    (runFunc f ⟨r.data ++ e, r.pos⟩ res).2 = .error er := by
  cases f with
  | hdr =>
    obtain ⟨h1, h2⟩ := pairEq h
    simp [runFunc] at h2
  | sds =>
    obtain ⟨h1, h2⟩ := pairEq h
    simp [runFunc] at h2
  | sfs =>
    obtain ⟨h1, h2⟩ := pairEq h
    simp [runFunc] at h2
  | hAt =>
    simp only [runFunc] at h ⊢
    rcases hr : r.read 1 with er0 | ⟨s, r3⟩ <;> simp only [hr] at h
    · obtain ⟨h1, h2⟩ := pairEq h
      cases h2
      exact absurd (read_err_eof r 1 er hr) hne
    · rw [read_append_ok r 1 s r3 e (by omega) hr]
      by_cases hs : s = ['@']
      · rw [if_pos hs] at h
        obtain ⟨h1, h2⟩ := pairEq h
        simp at h2
      · rw [if_neg hs] at h
        obtain ⟨h1, h2⟩ := pairEq h
        simp [hs]
        exact Except.error.inj h2
  | hSep1 =>
    simp only [runFunc] at h ⊢
    rcases hrs : readSeparator r with ⟨r3, out⟩
    rcases out with er0 | s <;> simp only [hrs] at h
    · obtain ⟨h1, h2⟩ := pairEq h
      obtain rfl : er0 = er := Except.error.inj h2
      obtain ⟨s, hrd, hv, rfl⟩ := readSeparator_err_dest r r3 er0 hne hrs
      simp [readSeparator, read_append_ok r 1 s r3 e (by omega) hrd, hv]
    · obtain ⟨h1, h2⟩ := pairEq h
      simp at h2
  | hSep2 =>
    simp only [runFunc] at h ⊢
    rcases hrs : readSeparator r with ⟨r3, out⟩
    rcases out with er0 | s <;> simp only [hrs] at h
    · obtain ⟨h1, h2⟩ := pairEq h
      obtain rfl : er0 = er := Except.error.inj h2
      obtain ⟨s, hrd, hv, rfl⟩ := readSeparator_err_dest r r3 er0 hne hrs
      simp [readSeparator, read_append_ok r 1 s r3 e (by omega) hrd, hv]
    · obtain ⟨h1, h2⟩ := pairEq h
      simp at h2
  | hSep3 =>
    simp only [runFunc] at h ⊢
    rcases hrs : readSeparator r with ⟨r3, out⟩
    rcases out with er0 | s <;> simp only [hrs] at h
    · obtain ⟨h1, h2⟩ := pairEq h
      obtain rfl : er0 = er := Except.error.inj h2
      obtain ⟨s, hrd, hv, rfl⟩ := readSeparator_err_dest r r3 er0 hne hrs
      simp [readSeparator, read_append_ok r 1 s r3 e (by omega) hrd, hv]
    · obtain ⟨h1, h2⟩ := pairEq h
      simp at h2
  | hAnsi =>
    simp only [runFunc] at h ⊢
    rcases hr : r.read 5 with er0 | ⟨s, r3⟩ <;> simp only [hr] at h
    · obtain ⟨h1, h2⟩ := pairEq h
      cases h2
      exact absurd (read_err_eof r 5 er hr) hne
    · rw [read_append_ok r 5 s r3 e (by omega) hr]
      by_cases hs : s = ['A', 'N', 'S', 'I', ' ']
      · rw [if_pos hs] at h
        obtain ⟨h1, h2⟩ := pairEq h
        simp at h2
      · rw [if_neg hs] at h
        obtain ⟨h1, h2⟩ := pairEq h
        simp [hs]
        exact Except.error.inj h2
  | hIin =>
    simp only [runFunc] at h ⊢
    rcases hr : r.read 6 with er0 | ⟨s, r3⟩ <;> simp only [hr] at h
    · obtain ⟨h1, h2⟩ := pairEq h
      cases h2
      exact absurd (read_err_eof r 6 er hr) hne
    · obtain ⟨h1, h2⟩ := pairEq h
      simp at h2
  | hVer =>
    simp only [runFunc] at h ⊢
    rcases hr : r.read 2 with er0 | ⟨s, r3⟩ <;> simp only [hr] at h
    · obtain ⟨h1, h2⟩ := pairEq h
      cases h2
      exact absurd (read_err_eof r 2 er hr) hne
    · obtain ⟨h1, h2⟩ := pairEq h
      simp at h2
  | hJur =>
    simp only [runFunc] at h ⊢
    rcases hr : r.read 2 with er0 | ⟨s, r3⟩ <;> simp only [hr] at h
    · obtain ⟨h1, h2⟩ := pairEq h
      cases h2
      exact absurd (read_err_eof r 2 er hr) hne
    · obtain ⟨h1, h2⟩ := pairEq h
      simp at h2
  | hNum =>
    simp only [runFunc] at h ⊢
    rcases hr : r.read 2 with er0 | ⟨s, r3⟩ <;> simp only [hr] at h
    · obtain ⟨h1, h2⟩ := pairEq h
      cases h2
      exact absurd (read_err_eof r 2 er hr) hne
    · rw [read_append_ok r 2 s r3 e (by omega) hr]
      rcases hn : jsParseInt s with _ | n <;> simp only [hn] at h
      · obtain ⟨h1, h2⟩ := pairEq h
        simp [hn]
        exact Except.error.inj h2
      · obtain ⟨h1, h2⟩ := pairEq h
        simp at h2
  | sd1 =>
    simp only [runFunc] at h ⊢
    rcases hp : parseSubfileDesignator r with ⟨r3, out⟩
    rcases out with er0 | sd <;> simp only [hp] at h
    · obtain ⟨h1, h2⟩ := pairEq h
      obtain rfl : er0 = er := Except.error.inj h2
      have hd := psd_err_dest r r3 er0 e hne hp
      rcases hq : parseSubfileDesignator ⟨r.data ++ e, r.pos⟩ with ⟨r4, out2⟩
      rw [hq] at hd
      simp only at hd
      rw [hd]
    · obtain ⟨h1, h2⟩ := pairEq h
      simp at h2
  | sf d =>
    obtain ⟨h1, h2⟩ := pairEq h
    exact absurd (sfOut_err_eof d r.data res er h2) hne
  | mrec sfr ty records =>
    obtain ⟨h1, h2⟩ := pairEq h
    exact h2
  | rec1 sfr ty records =>
    obtain ⟨h1, h2⟩ := pairEq h
    exact h2

/-!  ## Queue well-formedness and designator monotonicity -/

theorem mrecOut_ok_dest (sfr : StringReader) (ty : Str) (recs : RecMap)
    (res res1 : ParseResult) (next : List PFunc)
    (h : mrecOut sfr ty recs res = .ok (res1, next)) :
    res1.subfileDesignators = res.subfileDesignators ∧
      ∀ d, PFunc.sf d ∉ next := by
  simp only [mrecOut] at h
  rcases hp : sfr.peek 1 with er | nx <;> simp only [hp] at h
  · rcases er <;> simp only at h
    · obtain ⟨h1, h2⟩ := pairEq (Except.ok.inj h)
      subst h1 h2
      simp
    · cases h
    · cases h
  · by_cases ht : nx = res.header.segmentTerminator
    · rw [if_pos ht] at h
      rcases hrd : sfr.read 1 with er2 | pr <;> simp only [hrd] at h
      · cases h
      · obtain ⟨h1, h2⟩ := pairEq (Except.ok.inj h)
        subst h1 h2
        simp
    · rw [if_neg ht] at h
      obtain ⟨h1, h2⟩ := pairEq (Except.ok.inj h)
      subst h1 h2
      simp

theorem rec1Out_ok_dest (sfr : StringReader) (ty : Str) (recs : RecMap)
    (res res1 : ParseResult) (next : List PFunc)
    (h : rec1Out sfr ty recs res = .ok (res1, next)) :
    res1 = res ∧ ∀ d, PFunc.sf d ∉ next := by
  simp only [rec1Out] at h
  rcases h3 : StringReader.read ⟨sfr.data, sfr.pos⟩ 3 with er | ⟨key, c1⟩ <;>
    simp only [h3] at h
  · cases h
  · split at h
    · cases h
    · rcases hv : valLoop res.header c1 [] with er | ⟨val, nextc, c2⟩ <;>
        simp only [hv] at h
      · cases h
      · rcases hrd : sfr.read ((key.length : Int) + (val.length : Int))
            with er2 | ⟨s2, sfr1⟩ <;> simp only [hrd] at h
        · cases h
        · split at h
          · rcases hrd2 : sfr1.read 1 with er3 | ⟨s3, sfr2⟩ <;>
              simp only [hrd2] at h
            · cases h
            · obtain ⟨h1, h2⟩ := pairEq (Except.ok.inj h)
              subst h1 h2
              simp
          · obtain ⟨h1, h2⟩ := pairEq (Except.ok.inj h)
            subst h1 h2
            simp

theorem sfOut_ok_dest (d : SubfileDesignator) (data : Str)
    (res res1 : ParseResult) (next : List PFunc)
    (h : sfOut d data res = .ok (res1, next)) :
    res1 = res ∧ ∀ d2, PFunc.sf d2 ∉ next := by
  simp only [sfOut] at h
  rcases hp : StringReader.peek ⟨data, d.offset⟩ d.length with er | snap <;>
    simp only [hp] at h
  · cases h
  · split at h
    · rcases hrd : ( StringReader.mk snap 0).read 2 with er2 | ⟨pre, sfr⟩ <;>
        simp only [hrd] at h
      · cases h
      · obtain ⟨h1, h2⟩ := pairEq (Except.ok.inj h)
        subst h1 h2
        simp
    · obtain ⟨h1, h2⟩ := pairEq (Except.ok.inj h)
      subst h1 h2
      simp

/-- A successful step extends the designator list only at its end, and any
subfile step it queues refers to a designator in the (updated) result. -/
theorem runFunc_ok_wf (f : PFunc) (r r1 : StringReader)
    (res res1 : ParseResult) (next : List PFunc)
    (h : runFunc f r res = (r1, .ok (res1, next))) :
    (∃ t, res.subfileDesignators ++ t = res1.subfileDesignators) ∧
      ∀ d, PFunc.sf d ∈ next → d ∈ res1.subfileDesignators := by
  cases f with
  | hdr =>
    obtain ⟨h1, h2⟩ := pairEq h
    obtain ⟨h3, h4⟩ := pairEq (Except.ok.inj h2)
    subst h3 h4
    exact ⟨⟨[], by simp⟩, by intro d hd; simp at hd⟩
  | sds =>
    obtain ⟨h1, h2⟩ := pairEq h
    obtain ⟨h3, h4⟩ := pairEq (Except.ok.inj h2)
    subst h3 h4
    refine ⟨⟨[], by simp⟩, ?_⟩
    intro d hd
    have := List.eq_of_mem_replicate hd
    cases this
  | sfs =>
    obtain ⟨h1, h2⟩ := pairEq h
    obtain ⟨h3, h4⟩ := pairEq (Except.ok.inj h2)
    subst h3 h4
    refine ⟨⟨[], by simp⟩, ?_⟩
    intro d hd
    obtain ⟨a, ha, hae⟩ := List.mem_map.mp hd
    cases hae
    exact ha
  | hAt =>
    simp only [runFunc] at h
    rcases hr : r.read 1 with er | ⟨s, r2⟩ <;> simp only [hr] at h
    · simp at h
    · split at h
      · obtain ⟨h1, h2⟩ := pairEq h
        obtain ⟨h3, h4⟩ := pairEq (Except.ok.inj h2)
        subst h3 h4
        exact ⟨⟨[], by simp⟩, by intro d hd; simp at hd⟩
      · obtain ⟨h1, h2⟩ := pairEq h
        simp at h2
  | hSep1 =>
    simp only [runFunc] at h
    rcases hrs : readSeparator r with ⟨r2, out⟩
    rcases out with er | s <;> simp only [hrs] at h
    · simp at h
    · obtain ⟨h1, h2⟩ := pairEq h
      obtain ⟨h3, h4⟩ := pairEq (Except.ok.inj h2)
      subst h3 h4
      exact ⟨⟨[], by simp⟩, by intro d hd; simp at hd⟩
  | hSep2 =>
    simp only [runFunc] at h
    rcases hrs : readSeparator r with ⟨r2, out⟩
    rcases out with er | s <;> simp only [hrs] at h
    · simp at h
    · obtain ⟨h1, h2⟩ := pairEq h
      obtain ⟨h3, h4⟩ := pairEq (Except.ok.inj h2)
      subst h3 h4
      exact ⟨⟨[], by simp⟩, by intro d hd; simp at hd⟩
  | hSep3 =>
    simp only [runFunc] at h
    rcases hrs : readSeparator r with ⟨r2, out⟩
    rcases out with er | s <;> simp only [hrs] at h
    · simp at h
    · obtain ⟨h1, h2⟩ := pairEq h
      obtain ⟨h3, h4⟩ := pairEq (Except.ok.inj h2)
      subst h3 h4
      exact ⟨⟨[], by simp⟩, by intro d hd; simp at hd⟩
  | hAnsi =>
    simp only [runFunc] at h
    rcases hr : r.read 5 with er | ⟨s, r2⟩ <;> simp only [hr] at h
    · simp at h
    · split at h
      · obtain ⟨h1, h2⟩ := pairEq h
        obtain ⟨h3, h4⟩ := pairEq (Except.ok.inj h2)
        subst h3 h4
        exact ⟨⟨[], by simp⟩, by intro d hd; simp at hd⟩
      · obtain ⟨h1, h2⟩ := pairEq h
        simp at h2
  | hIin =>
    simp only [runFunc] at h
    rcases hr : r.read 6 with er | ⟨s, r2⟩ <;> simp only [hr] at h
    · simp at h
    · obtain ⟨h1, h2⟩ := pairEq h
      obtain ⟨h3, h4⟩ := pairEq (Except.ok.inj h2)
      subst h3 h4
      exact ⟨⟨[], by simp⟩, by intro d hd; simp at hd⟩
  | hVer =>
    simp only [runFunc] at h
    rcases hr : r.read 2 with er | ⟨s, r2⟩ <;> simp only [hr] at h
    · simp at h
    · obtain ⟨h1, h2⟩ := pairEq h
      obtain ⟨h3, h4⟩ := pairEq (Except.ok.inj h2)
      subst h3 h4
      exact ⟨⟨[], by simp⟩, by intro d hd; simp at hd⟩
  | hJur =>
    simp only [runFunc] at h
    rcases hr : r.read 2 with er | ⟨s, r2⟩ <;> simp only [hr] at h
    · simp at h
    · obtain ⟨h1, h2⟩ := pairEq h
      obtain ⟨h3, h4⟩ := pairEq (Except.ok.inj h2)
      subst h3 h4
      exact ⟨⟨[], by simp⟩, by intro d hd; simp at hd⟩
  | hNum =>
    simp only [runFunc] at h
    rcases hr : r.read 2 with er | ⟨s, r2⟩ <;> simp only [hr] at h
    · simp at h
    · rcases hn : jsParseInt s with _ | n <;> simp only [hn] at h
      · simp at h
      · obtain ⟨h1, h2⟩ := pairEq h
        obtain ⟨h3, h4⟩ := pairEq (Except.ok.inj h2)
        subst h3 h4
        exact ⟨⟨[], by simp⟩, by intro d hd; simp at hd⟩
  | sd1 =>
    simp only [runFunc] at h
    rcases hp : parseSubfileDesignator r with ⟨r2, out⟩
    rcases out with er | sd <;> simp only [hp] at h
    · simp at h
    · obtain ⟨h1, h2⟩ := pairEq h
      obtain ⟨h3, h4⟩ := pairEq (Except.ok.inj h2)
      subst h3 h4
      exact ⟨⟨[sd], by simp⟩, by intro d hd; simp at hd⟩
  | sf d =>
    obtain ⟨h1, h2⟩ := pairEq h
    obtain ⟨h3, h4⟩ := sfOut_ok_dest d r.data res res1 next h2
    subst h3
    exact ⟨⟨[], by simp⟩, fun d2 hd => absurd hd (h4 d2)⟩
  | mrec sfr ty records =>
    obtain ⟨h1, h2⟩ := pairEq h
    obtain ⟨h3, h4⟩ := mrecOut_ok_dest sfr ty records res res1 next h2
    exact ⟨⟨[], by simp [h3]⟩, fun d2 hd => absurd hd (h4 d2)⟩
  | rec1 sfr ty records =>
    obtain ⟨h1, h2⟩ := pairEq h
    obtain ⟨h3, h4⟩ := rec1Out_ok_dest sfr ty records res res1 next h2
    subst h3
    exact ⟨⟨[], by simp⟩, fun d2 hd => absurd hd (h4 d2)⟩

/-- One successful engine step preserves the queue invariant. -/
theorem step_wf (st : EngState) (f : PFunc) (rest : List PFunc)
    (r1 : StringReader) (res1 : ParseResult) (next : List PFunc)
    (hfu : st.funcs = f :: rest)
    (h : runFunc f st.reader st.result = (r1, .ok (res1, next)))
    (hwf : FuncsWF st) :
    FuncsWF ⟨r1, next ++ rest, res1⟩ := by
  intro d hd
  obtain ⟨⟨t, ht⟩, hnext⟩ := runFunc_ok_wf f st.reader r1 st.result res1 next h
  rcases List.mem_append.mp hd with hn | hr
  · exact hnext d hn
  · have hmem : PFunc.sf d ∈ st.funcs := by
      rw [hfu]
      exact List.mem_cons_of_mem f hr
    have := hwf d hmem
    rw [← ht]
    exact List.mem_append.mpr (Or.inl this)

/-- Along a completing run, the designator list only grows at its end. -/
theorem drive_done_sds_prefix (n : Nat) :
    ∀ (st F : EngState), drive n st = .done F →
      ∃ t, st.result.subfileDesignators ++ t = F.result.subfileDesignators := by
  induction n with
  | zero =>
    intro st F h
    simp [drive] at h
  | succ n ih =>
    intro st F h
    simp only [drive] at h
    rcases hfu : st.funcs with _ | ⟨f, rest⟩ <;> simp only [hfu] at h
    · cases h
      exact ⟨[], by simp⟩
    · rcases hrf : runFunc f st.reader st.result with ⟨r1, out⟩
      rcases out with e | ⟨res1, next⟩ <;> simp only [hrf] at h
      · cases h
      · obtain ⟨t1, ht1⟩ := ih _ F h
        obtain ⟨⟨t0, ht0⟩, _⟩ :=
          runFunc_ok_wf f st.reader r1 st.result res1 next hrf
        refine ⟨t0 ++ t1, ?_⟩
        rw [← List.append_assoc, ht0]
        exact ht1

theorem addData_reader (st : EngState) (e : Str) :
    (addData st e).reader = ⟨st.reader.data ++ e, st.reader.pos⟩ := rfl

theorem addData_funcs (st : EngState) (e : Str) :
    (addData st e).funcs = st.funcs := rfl

theorem addData_result (st : EngState) (e : Str) :
    (addData st e).result = st.result := rfl

/-- Simulation: suppose the engine over the full buffer (`addData st e`)
completes with final state `F`, every designator of `F` declares a
non-negative length, and `st` satisfies the queue invariant.  Then the
engine over the partial buffer either completes with the same result
(shifted by `e`), or throws `EOF` at a state that the full-buffer engine
passes through (shifted by `e`). -/
theorem drive_sim (n : Nat) :
    ∀ (st : EngState) (e : Str) (F : EngState),
      FuncsWF st →
      (∀ d ∈ F.result.subfileDesignators, 0 ≤ d.length) →
      drive n (addData st e) = .done F →
      (∃ st1, drive n st = .done st1 ∧ addData st1 e = F) ∨
      (∃ st1 k, drive n st = .threw .eof st1 ∧ k < n ∧
        drive k (addData st e) = .more (addData st1 e) ∧ FuncsWF st1) := by
  induction n with
  | zero =>
    intro st e F _ _ h
    simp [drive] at h
  | succ n ih =>
    intro st e F hwf hlen h
    rcases hfu : st.funcs with _ | ⟨f, rest⟩
    · left
      refine ⟨st, by simp only [drive, hfu], ?_⟩
      have h2 : drive (n + 1) (addData st e) = .done (addData st e) := by
        simp only [drive, addData_funcs, hfu]
      rw [h] at h2
      exact (Outcome.done.inj h2).symm
    · rcases hrf : runFunc f st.reader st.result with ⟨rY, outY⟩
      rcases outY with eY | ⟨res1, next⟩
      · by_cases heof : eY = .eof
        · subst heof
          right
          have hr1 : rY = st.reader := by
            have := runFunc_eof_reader f st.reader st.result (by rw [hrf])
            rw [hrf] at this
            exact this
          refine ⟨st, 0, ?_, by omega, by simp [drive], hwf⟩
          simp only [drive, hfu, hrf]
          rw [hr1, ← hfu]
        · exfalso
          have hx := runFunc_append_err f st.reader rY st.result eY e heof
            (by rw [hrf])
          simp only [drive, addData_funcs, hfu, addData_reader,
            addData_result] at h
          rcases hq : runFunc f
              (⟨st.reader.data ++ e, st.reader.pos⟩ : StringReader)
              st.result with ⟨rX, outX⟩
          rw [hq] at hx
          simp only at hx
          subst hx
          simp only [hq] at h
          cases h
      · have hsf : ∀ d, f = PFunc.sf d → 0 ≤ d.length := by
          intro d hf
          subst hf
          have hmem : d ∈ st.result.subfileDesignators :=
            hwf d (by rw [hfu]; exact List.mem_cons_self _ _)
          obtain ⟨t, ht⟩ := drive_done_sds_prefix (n + 1) (addData st e) F h
          rw [addData_result] at ht
          refine hlen d ?_
          rw [← ht]
          exact List.mem_append.mpr (Or.inl hmem)
        obtain ⟨hxok, hdata⟩ :=
          runFunc_append f st.reader rY st.result res1 next e hsf
            (by rw [hrf])
        have hwfY : FuncsWF ⟨rY, next ++ rest, res1⟩ :=
          step_wf st f rest rY res1 next hfu (by rw [hrf]) hwf
        have haddY :
            addData ⟨rY, next ++ rest, res1⟩ e =
              ⟨⟨rY.data ++ e, rY.pos⟩, next ++ rest, res1⟩ := by
          simp [addData, StringReader.append]
        have hstepX : ∀ m, drive (m + 1) (addData st e) =
            drive m (addData ⟨rY, next ++ rest, res1⟩ e) := by
          intro m
          simp only [drive, addData_funcs, hfu, addData_reader,
            addData_result, hxok]
          rw [haddY, hdata]
        have hstepY : ∀ m, drive (m + 1) st =
            drive m (⟨rY, next ++ rest, res1⟩ : EngState) := by
          intro m
          simp only [drive, hfu, hrf]
        rw [hstepX n] at h
        rcases ih ⟨rY, next ++ rest, res1⟩ e F hwfY hlen h with
          ⟨st1, hd1, ha1⟩ | ⟨st1, k, ht1, hk, hm1, hwf1⟩
        · left
          refine ⟨st1, ?_, ha1⟩
          rw [hstepY n]
          exact hd1
        · right
          refine ⟨st1, k + 1, ?_, by omega, ?_, hwf1⟩
          · rw [hstepY n]
            exact ht1
          · rw [hstepX k]
            exact hm1

theorem initState_nil_not_done (m : Nat) (F : EngState) :
    drive m (initState []) ≠ .done F := by
  match m with
  | 0 => simp [drive]
  | 1 =>
    intro h
    have h1 : drive 1 (initState []) = .more
        ⟨⟨[], 0⟩, [.hAt, .hSep1, .hSep2, .hSep3, .hAnsi, .hIin, .hVer,
          .hJur, .hNum, .sds, .sfs], initResult⟩ := by decide
    rw [h1] at h
    cases h
  | j + 2 =>
    intro h
    have h2 : drive 2 (initState []) = .threw .eof
        ⟨⟨[], 0⟩, [.hAt, .hSep1, .hSep2, .hSep3, .hAnsi, .hIin, .hVer,
          .hJur, .hNum, .sds, .sfs], initResult⟩ := by decide
    have h3 := drive_threw_mono 2 _ _ _ h2 j
    rw [show 2 + j = j + 2 by omega] at h3
    rw [h3] at h
    cases h

/-- Chunked feeding tracks the whole-buffer run: from a state on the
whole-buffer trajectory (or an already-finished one), feeding the remaining
chunks ends with the final result of the whole-buffer run. -/
theorem feed_sim (N : Nat) (s : Str) (final : EngState)
    (hdone : drive N (initState s) = .done final)
    (hlen : ∀ d ∈ final.result.subfileDesignators, 0 ≤ d.length) :
    ∀ (chunks : List Str) (st : EngState),
      ((st.funcs = [] ∧ st.result = final.result) ∨
        (∃ k, k < N ∧
          drive k (initState s) =
            .more (addData st (chunks.foldr (· ++ ·) [])) ∧
          FuncsWF st ∧ (EofStuck st ∨ st = initState []))) →
      (feedFrom N st chunks).funcs = [] ∧
        (feedFrom N st chunks).result = final.result := by
  have hN : 0 < N := by
    cases N with
    | zero => simp [drive] at hdone
    | succ n => omega
  intro chunks
  induction chunks with
  | nil =>
    intro st hinv
    rcases hinv with ⟨hf, hr⟩ | ⟨k, hk, hm, hwf, hstuck⟩
    · exact ⟨hf, hr⟩
    · rw [show ([] : List Str).foldr (· ++ ·) [] = [] from rfl,
        addData_nil] at hm
      have hfin : drive (N - k) st = .done final :=
        drive_more_done k N _ st final hm hdone
      rcases hstuck with ⟨f, rest, hfu, heof⟩ | rfl
      · exfalso
        obtain ⟨m, hm2⟩ : ∃ m, N - k = m + 1 := ⟨N - k - 1, by omega⟩
        rw [hm2] at hfin
        simp only [drive, hfu] at hfin
        rcases hrf : runFunc f st.reader st.result with ⟨r1, out⟩
        rw [hrf] at heof
        simp only at heof
        subst heof
        simp only [hrf] at hfin
        cases hfin
      · exact absurd hfin (initState_nil_not_done _ _)
  | cons c ctail ih =>
    intro st hinv
    rcases hinv with ⟨hf, hr⟩ | ⟨k, hk, hm, hwf, hstuck⟩
    · have hd : drive N (addData st c) = .done (addData st c) := by
        obtain ⟨m, rfl⟩ : ∃ m, N = m + 1 := ⟨N - 1, by omega⟩
        simp only [drive, addData_funcs, hf]
      have hphase : feedFrom N st (c :: ctail) =
          feedFrom N (addData st c) ctail := by
        simp [feedFrom, afterDrive, hd, driveStateOf]
      rw [hphase]
      exact ih (addData st c) (Or.inl ⟨hf, hr⟩)
    · have hXdone :
          drive (N - k) (addData st ((c :: ctail).foldr (· ++ ·) [])) =
            .done final :=
        drive_more_done k N _ _ final hm hdone
      have hsplit : addData st ((c :: ctail).foldr (· ++ ·) []) =
          addData (addData st c) (ctail.foldr (· ++ ·) []) := by
        rw [addData_assoc, List.foldr_cons]
      rw [hsplit] at hXdone
      have hwfc : FuncsWF (addData st c) := hwf
      rcases drive_sim (N - k) (addData st c) (ctail.foldr (· ++ ·) [])
          final hwfc hlen hXdone with
        ⟨st1, hd1, ha1⟩ | ⟨st1, k2, ht1, hk2, hm1, hwf1⟩
      · have hdN : drive N (addData st c) = .done st1 := by
          have := drive_done_mono (N - k) _ _ hd1 k
          rw [show N - k + k = N by omega] at this
          exact this
        have hphase : feedFrom N st (c :: ctail) =
            feedFrom N st1 ctail := by
          simp [feedFrom, afterDrive, hdN, driveStateOf]
        rw [hphase]
        apply ih
        left
        constructor
        · exact drive_done_funcs _ _ _ hd1
        · have := congrArg EngState.result ha1
          simpa [addData_result] using this
      · have htN : drive N (addData st c) = .threw .eof st1 := by
          have := drive_threw_mono (N - k) _ _ _ ht1 k
          rw [show N - k + k = N by omega] at this
          exact this
        have hphase : feedFrom N st (c :: ctail) =
            feedFrom N st1 ctail := by
          simp [feedFrom, afterDrive, htN, driveStateOf]
        rw [hphase]
        apply ih
        right
        refine ⟨k + k2, by omega, ?_, hwf1, Or.inl ?_⟩
        · have hcomp := drive_more_compose k k2 (initState s) _ hm
          rw [hcomp, hsplit]
          exact hm1
        · exact (drive_threw_eof_reached N _ st1 htN).2

set_option maxHeartbeats 4000000 in
/-- C1 counterexample: the 106-character input `c1exData` parses to
completion when supplied all at once, and the two chunks `c1exChunk1` and
`c1exChunk2` concatenate to it; yet feeding the chunks in order (driving
the engine after each and treating `EOF` as "wait for more") also runs to
completion but produces a different ParseResult — the whole-buffer run
extracts the record `DAQ = "1"` for subfile `DL` while the chunked run
commits `DL` with no records, because the designator's negative declared
length makes the snapshot depend on the buffer length at the moment the
subfile step first succeeds. -/
theorem c1_counterexample :
    c1exChunk1 ++ c1exChunk2 = c1exData ∧
    drive 40 (initState c1exData) = .done c1exFinal ∧
    (feed 40 [c1exChunk1, c1exChunk2]).funcs = [] ∧
    (feed 40 [c1exChunk1, c1exChunk2]).result ≠ c1exFinal.result := by
  refine ⟨by decide, by decide, by decide, by decide⟩

/-- C1 (amended): for every input that parses to completion when supplied
all at once *and whose parsed subfile designators all declare non-negative
lengths*, constructing a fresh parser and feeding any chunk partition in
order — driving the step engine after each chunk and treating the `EOF`
condition as "wait for more" — finishes with the queue drained and exactly
the same ParseResult (identical header fields, designator sequence and
subfile records) as the single-shot parse. -/
theorem c1_chunked_resumption (s : Str) (chunks : List Str) (N : Nat)
    (final : EngState)
    (hjoin : chunks.foldr (· ++ ·) [] = s)
    (hdone : drive N (initState s) = .done final)
    (hlen : ∀ d ∈ final.result.subfileDesignators, 0 ≤ d.length) :
    (feed N chunks).funcs = [] ∧ (feed N chunks).result = final.result := by
  apply feed_sim N s final hdone hlen chunks (initState [])
  right
  have hN : 0 < N := by
    cases N with
    | zero => simp [drive] at hdone
    | succ n => omega
  refine ⟨0, hN, ?_, ?_, Or.inr rfl⟩
  · simp only [drive]
    congr 1
    rw [hjoin]
    simp [initState, mkParser, addData, StringReader.append]
  · intro d hd
    simp [initState, mkParser] at hd

theorem c1_chunked_resumption_witness :
    ([("@\n\x1e\rANSI 6360").data, ("00110000").data].foldr (· ++ ·) [] =
        c1wData) ∧
    drive 13 (initState c1wData) = .done c1wFinal ∧
    c1wFinal.result.subfileDesignators = [] ∧
    (feed 13 [("@\n\x1e\rANSI 6360").data, ("00110000").data]).funcs = [] ∧
    (feed 13 [("@\n\x1e\rANSI 6360").data,
      ("00110000").data]).result = c1wFinal.result := by
  refine ⟨by decide, by decide, by decide, ?_, ?_⟩
  · exact (c1_chunked_resumption c1wData _ 13 c1wFinal (by decide)
      (by decide) (by decide)).1
  · exact (c1_chunked_resumption c1wData _ 13 c1wFinal (by decide)
      (by decide) (by decide)).2

/-- Forward extension: a completing run completes identically (up to the
extended backing string) after appending more data, provided all parsed
designators declare non-negative lengths. -/
theorem drive_done_ext (n : Nat) :
    ∀ (st st1 : EngState) (e : Str),
      FuncsWF st →
      (∀ d ∈ st1.result.subfileDesignators, 0 ≤ d.length) →
      drive n st = .done st1 →
      drive n (addData st e) = .done (addData st1 e) := by
  induction n with
  | zero =>
    intro st st1 e _ _ h
    simp [drive] at h
  | succ n ih =>
    intro st st1 e hwf hlen h
    have hY : drive (n + 1) st = .done st1 := h
    simp only [drive] at h ⊢
    rcases hfu : st.funcs with _ | ⟨f, rest⟩ <;>
      simp only [addData_funcs, hfu] at h ⊢
    · cases h
      rfl
    · rcases hrf : runFunc f st.reader st.result with ⟨rY, outY⟩
      rcases outY with eY | ⟨res1, next⟩ <;> simp only [hrf] at h
      · cases h
      · have hsf : ∀ d, f = PFunc.sf d → 0 ≤ d.length := by
          intro d hf
          subst hf
          have hmem : d ∈ st.result.subfileDesignators :=
            hwf d (by rw [hfu]; exact List.mem_cons_self _ _)
          obtain ⟨t, ht⟩ := drive_done_sds_prefix (n + 1) st st1 hY
          refine hlen d ?_
          rw [← ht]
          exact List.mem_append.mpr (Or.inl hmem)
        obtain ⟨hxok, hdata⟩ :=
          runFunc_append f st.reader rY st.result res1 next e hsf
            (by rw [hrf])
        simp only [addData_reader, addData_result, hxok]
        have hrec := ih ⟨rY, next ++ rest, res1⟩ st1 e
          (step_wf st f rest rY res1 next hfu (by rw [hrf]) hwf) hlen h
        rw [show (addData ⟨rY, next ++ rest, res1⟩ e : EngState) =
            ⟨⟨st.reader.data ++ e, rY.pos⟩, next ++ rest, res1⟩ from by
          simp [addData, StringReader.append, hdata]] at hrec
        exact hrec

set_option maxHeartbeats 2000000 in
/-- C5: parsing the concrete input whose recognized `DL` subfile's declared
byte range contains exactly the body `"DLDAQT64235789\nDCSSAMPLE\r"` (data
element separator LF, segment terminator CR) yields exactly the records
`DAQ = "T64235789"` and `DCS = "SAMPLE"`; appending anything after the CR
leaves the outcome unchanged (nothing beyond the declared range is
scanned); and the record scanner reaches the CR at snapshot position 24,
consumes it, and completes the subfile exactly there. -/
theorem c5_record_boundaries (junk : Str) :
    (drive 40 (initState c5exData) = .done c5final ∧
      mapGet? c5final.result.subfiles ['D', 'L'] =
        some [(['D', 'A', 'Q'], ['T', '6', '4', '2', '3', '5', '7', '8', '9']),
          (['D', 'C', 'S'], ['S', 'A', 'M', 'P', 'L', 'E'])]) ∧
    drive 40 (initState (c5exData ++ junk)) = .done (addData c5final junk) ∧
    (drive 4 c5scan = .more
      ⟨⟨[], 0⟩, [.mrec ⟨c5body, 24⟩ ['D', 'L']
          [(['D', 'A', 'Q'], ['T', '6', '4', '2', '3', '5', '7', '8', '9']),
            (['D', 'C', 'S'], ['S', 'A', 'M', 'P', 'L', 'E'])]],
        ⟨c5hdr, [⟨['D', 'L'], 31, 25⟩], []⟩⟩ ∧
      drive 6 c5scan = .done
        ⟨⟨[], 0⟩, [],
          ⟨c5hdr, [⟨['D', 'L'], 31, 25⟩],
            [(['D', 'L'],
              [(['D', 'A', 'Q'],
                  ['T', '6', '4', '2', '3', '5', '7', '8', '9']),
                (['D', 'C', 'S'], ['S', 'A', 'M', 'P', 'L', 'E'])])]⟩⟩) := by
  refine ⟨⟨by decide, by decide⟩, ?_, by decide, by decide⟩
  have hinit : initState (c5exData ++ junk) = addData (initState c5exData) junk := by
    simp [initState, mkParser, addData, StringReader.append]
  rw [hinit]
  exact drive_done_ext 40 (initState c5exData) c5final junk
    (by intro d hd; simp [initState, mkParser] at hd)
    (by decide) (by decide)

theorem c5_record_boundaries_witness :
    drive 40 (initState (c5exData ++ ['x'])) =
      .done (addData c5final ['x']) :=
  (c5_record_boundaries ['x']).2.1

/-- C4: if parsing reaches a header separator position whose character is an
ASCII letter, digit or space, the engine throws `HeaderParseError` (not the
generic `ParseError`), with the buffer cursor just past that exact
character. -/
theorem c4_separator_rejection (a b c : Char) (rest : Str)
    (h : isSepForbidden a = true ∨
      (isSepForbidden a = false ∧ isSepForbidden b = true) ∨
      (isSepForbidden a = false ∧ isSepForbidden b = false ∧
        isSepForbidden c = true)) :
    ∃ st, drive 5 (initState ('@' :: a :: b :: c :: rest)) =
        .threw .headerParse st ∧
      st.reader.pos = (if isSepForbidden a then 2
        else if isSepForbidden b then 3 else 4) := by
  have hr0 : StringReader.read ⟨('@' :: a :: b :: c :: rest : Str), 0⟩ 1 =
      .ok (['@'], ⟨'@' :: a :: b :: c :: rest, 1⟩) := by
    have := read_exact [] ['@'] (a :: b :: c :: rest) 1 (by simp)
    simpa using this
  have hr1 : StringReader.read ⟨('@' :: a :: b :: c :: rest : Str), 1⟩ 1 =
      .ok ([a], ⟨'@' :: a :: b :: c :: rest, 2⟩) := by
    have := read_exact ['@'] [a] (b :: c :: rest) 1 (by simp)
    simpa using this
  have hr2 : StringReader.read ⟨('@' :: a :: b :: c :: rest : Str), 2⟩ 1 =
      .ok ([b], ⟨'@' :: a :: b :: c :: rest, 3⟩) := by
    have := read_exact ['@', a] [b] (c :: rest) 1 (by simp)
    simpa using this
  have hr3 : StringReader.read ⟨('@' :: a :: b :: c :: rest : Str), 3⟩ 1 =
      .ok ([c], ⟨'@' :: a :: b :: c :: rest, 4⟩) := by
    have := read_exact ['@', a, b] [c] rest 1 (by simp)
    simpa using this
  rcases h with ha | ⟨ha, hb⟩ | ⟨ha, hb, hc⟩
  · refine ⟨⟨⟨'@' :: a :: b :: c :: rest, 2⟩,
      [.hSep1, .hSep2, .hSep3, .hAnsi, .hIin, .hVer, .hJur, .hNum, .sds,
        .sfs], initResult⟩, ?_, by simp [ha]⟩
    simp only [initState, mkParser, drive, runFunc, readSeparator, hr0, hr1,
      invalidSeparatorTest, List.any_cons, List.any_nil, ha, Bool.or_false,
      List.cons_append, List.nil_append, reduceIte]
  · refine ⟨⟨⟨'@' :: a :: b :: c :: rest, 3⟩,
      [.hSep2, .hSep3, .hAnsi, .hIin, .hVer, .hJur, .hNum, .sds, .sfs],
      { initResult with
        header := { initResult.header with
          dataElementSeparator := [a] } }⟩, ?_, by simp [ha, hb]⟩
    simp only [initState, mkParser, drive, runFunc, readSeparator, hr0, hr1,
      hr2, invalidSeparatorTest, List.any_cons, List.any_nil, ha, hb,
      Bool.or_false, Bool.false_eq_true, if_false, List.cons_append,
      List.nil_append, reduceIte]
  · refine ⟨⟨⟨'@' :: a :: b :: c :: rest, 4⟩,
      [.hSep3, .hAnsi, .hIin, .hVer, .hJur, .hNum, .sds, .sfs],
      { initResult with
        header := { initResult.header with
          dataElementSeparator := [a], recordSeparator := [b] } }⟩, ?_,
      by simp [ha, hb, hc]⟩
    simp only [initState, mkParser, drive, runFunc, readSeparator, hr0, hr1,
      hr2, hr3, invalidSeparatorTest, List.any_cons, List.any_nil, ha, hb,
      hc, Bool.or_false, Bool.false_eq_true, if_false, List.cons_append,
      List.nil_append, reduceIte]

theorem c4_witness :
    (isSepForbidden ' ' = true ∨
      (isSepForbidden ' ' = false ∧ isSepForbidden ' ' = true) ∨
      (isSepForbidden ' ' = false ∧ isSepForbidden ' ' = false ∧
        isSepForbidden 'A' = true)) ∧
    (∃ st, drive 5 (initState ('@' :: ' ' :: ' ' :: 'A' ::
        ("NSI 000000000000XXXXXX").data)) = .threw .headerParse st ∧
      st.reader.pos = (if isSepForbidden ' ' then 2
        else if isSepForbidden ' ' then 3 else 4)) :=
  ⟨by decide,
    c4_separator_rejection ' ' ' ' 'A' ("NSI 000000000000XXXXXX").data
      (by decide)⟩

theorem read_within (d : Str) (p n : Int) (h0 : 0 ≤ p) (hn : 0 ≤ n)
    (hpn : p + n ≤ (d.length : Int)) :
    StringReader.read ⟨d, p⟩ n =
      .ok (jsSubstring d p (p + n), ⟨d, p + n⟩) := by
  simp only [StringReader.read, StringReader.peek, StringReader.avail]
  rw [if_neg (by omega)]

/-- The designator step on a buffer positioned exactly at a valid block:
consumes the block and appends its designator. -/
theorem sd1_step_exact (pre block post : Str) (res : ParseResult)
    (hb : ValidBlock block) :
    runFunc .sd1 ⟨pre ++ block ++ post, (pre.length : Int)⟩ res =
      (⟨pre ++ block ++ post, (pre.length : Int) + 10⟩,
        .ok ({ res with subfileDesignators :=
          res.subfileDesignators ++ [blockToSd block] }, [])) := by
  obtain ⟨hlen, ho, hl⟩ := hb
  obtain ⟨off, hoff⟩ := Option.isSome_iff_exists.mp ho
  obtain ⟨len, hln⟩ := Option.isSome_iff_exists.mp hl
  have hp : StringReader.peek ⟨pre ++ block ++ post, (pre.length : Int)⟩ 10 =
      .ok block := peek_exact pre block post 10 (by simp [hlen])
  have hc1 : StringReader.read ⟨block, 0⟩ 2 =
      .ok (jsSubstring block 0 2, ⟨block, 2⟩) := by
    have := read_within block 0 2 (by omega) (by omega) (by simp [hlen])
    simpa using this
  have hc2 : StringReader.read ⟨block, 2⟩ 4 =
      .ok (jsSubstring block 2 6, ⟨block, 6⟩) := by
    have := read_within block 2 4 (by omega) (by omega) (by simp [hlen])
    simpa using this
  have hc3 : StringReader.read ⟨block, 6⟩ 4 =
      .ok (jsSubstring block 6 10, ⟨block, 10⟩) := by
    have := read_within block 6 4 (by omega) (by omega) (by simp [hlen])
    simpa using this
  have hr10 : StringReader.read ⟨pre ++ block ++ post, (pre.length : Int)⟩
      10 = .ok (block, ⟨pre ++ block ++ post, (pre.length : Int) + 10⟩) :=
    read_exact pre block post 10 (by simp [hlen])
  simp only [runFunc, parseSubfileDesignator, hp, hc1, hc2, hc3, hr10, hoff,
    hln, blockToSd, Option.getD_some]

/-- Symbolic execution of the header phase: a well-formed 21-character
header is consumed in 11 engine steps, leaving `numEntries` designator
steps queued before the subfiles step. -/
theorem header_phase (a b c : Char) (iin ver jur num tail : Str) (N : Nat)
    (ha : isSepForbidden a = false) (hb : isSepForbidden b = false)
    (hc : isSepForbidden c = false)
    (hiin : iin.length = 6) (hver : ver.length = 2) (hjur : jur.length = 2)
    (hnum : num.length = 2) (hN : jsParseInt num = some (N : Int)) :
    drive 11 (initState ('@' :: a :: b :: c :: 'A' :: 'N' :: 'S' :: 'I' :: ' ' :: (iin ++ ver ++ jur ++ num ++ tail))) =
      .more ⟨⟨'@' :: a :: b :: c :: 'A' :: 'N' :: 'S' :: 'I' :: ' ' :: (iin ++ ver ++ jur ++ num ++ tail), 21⟩,
        List.replicate N .sd1 ++ [.sfs],
        { header :=
            { dataElementSeparator := [a], recordSeparator := [b],
              segmentTerminator := [c], iin := iin, aamvaVersion := ver,
              jurisdictionVersion := jur, numEntries := (N : Int) },
          subfileDesignators := [], subfiles := [] }⟩ := by
  have hr0 : StringReader.read ⟨('@' :: a :: b :: c :: 'A' :: 'N' :: 'S' :: 'I' :: ' ' :: (iin ++ ver ++ jur ++ num ++ tail) : Str), 0⟩ 1 =
      .ok (['@'], ⟨'@' :: a :: b :: c :: 'A' :: 'N' :: 'S' :: 'I' :: ' ' :: (iin ++ ver ++ jur ++ num ++ tail), 1⟩) := by
    have := read_exact [] ['@'] (a :: b :: c :: 'A' :: 'N' :: 'S' :: 'I' ::
      ' ' :: (iin ++ ver ++ jur ++ num ++ tail)) 1 (by simp)
    simpa using this
  have hr1 : StringReader.read ⟨('@' :: a :: b :: c :: 'A' :: 'N' :: 'S' :: 'I' :: ' ' :: (iin ++ ver ++ jur ++ num ++ tail) : Str), 1⟩ 1 =
      .ok ([a], ⟨'@' :: a :: b :: c :: 'A' :: 'N' :: 'S' :: 'I' :: ' ' :: (iin ++ ver ++ jur ++ num ++ tail), 2⟩) := by
    have := read_exact ['@'] [a] (b :: c :: 'A' :: 'N' :: 'S' :: 'I' ::
      ' ' :: (iin ++ ver ++ jur ++ num ++ tail)) 1 (by simp)
    simpa using this
  have hr2 : StringReader.read ⟨('@' :: a :: b :: c :: 'A' :: 'N' :: 'S' :: 'I' :: ' ' :: (iin ++ ver ++ jur ++ num ++ tail) : Str), 2⟩ 1 =
      .ok ([b], ⟨'@' :: a :: b :: c :: 'A' :: 'N' :: 'S' :: 'I' :: ' ' :: (iin ++ ver ++ jur ++ num ++ tail), 3⟩) := by
    have := read_exact ['@', a] [b] (c :: 'A' :: 'N' :: 'S' :: 'I' ::
      ' ' :: (iin ++ ver ++ jur ++ num ++ tail)) 1 (by simp)
    simpa using this
  have hr3 : StringReader.read ⟨('@' :: a :: b :: c :: 'A' :: 'N' :: 'S' :: 'I' :: ' ' :: (iin ++ ver ++ jur ++ num ++ tail) : Str), 3⟩ 1 =
      .ok ([c], ⟨'@' :: a :: b :: c :: 'A' :: 'N' :: 'S' :: 'I' :: ' ' :: (iin ++ ver ++ jur ++ num ++ tail), 4⟩) := by
    have := read_exact ['@', a, b] [c] ('A' :: 'N' :: 'S' :: 'I' ::
      ' ' :: (iin ++ ver ++ jur ++ num ++ tail)) 1 (by simp)
    simpa using this
  have hr4 : StringReader.read ⟨('@' :: a :: b :: c :: 'A' :: 'N' :: 'S' :: 'I' :: ' ' :: (iin ++ ver ++ jur ++ num ++ tail) : Str), 4⟩ 5 =
      .ok (['A', 'N', 'S', 'I', ' '], ⟨'@' :: a :: b :: c :: 'A' :: 'N' :: 'S' :: 'I' :: ' ' :: (iin ++ ver ++ jur ++ num ++ tail), 9⟩) := by
    have := read_exact ['@', a, b, c] ['A', 'N', 'S', 'I', ' ']
      (iin ++ ver ++ jur ++ num ++ tail) 5 (by simp)
    simpa using this
  have hr5 : StringReader.read ⟨('@' :: a :: b :: c :: 'A' :: 'N' :: 'S' :: 'I' :: ' ' :: (iin ++ ver ++ jur ++ num ++ tail) : Str), 9⟩ 6 =
      .ok (iin, ⟨'@' :: a :: b :: c :: 'A' :: 'N' :: 'S' :: 'I' :: ' ' :: (iin ++ ver ++ jur ++ num ++ tail), 15⟩) := by
    have := read_exact ['@', a, b, c, 'A', 'N', 'S', 'I', ' '] iin
      (ver ++ jur ++ num ++ tail) 6 (by simp [hiin])
    simpa [hiin] using this
  have hr6 : StringReader.read ⟨('@' :: a :: b :: c :: 'A' :: 'N' :: 'S' :: 'I' :: ' ' :: (iin ++ ver ++ jur ++ num ++ tail) : Str), 15⟩ 2 =
      .ok (ver, ⟨'@' :: a :: b :: c :: 'A' :: 'N' :: 'S' :: 'I' :: ' ' :: (iin ++ ver ++ jur ++ num ++ tail), 17⟩) := by
    have := read_exact (['@', a, b, c, 'A', 'N', 'S', 'I', ' '] ++ iin) ver
      (jur ++ num ++ tail) 2 (by simp [hver])
    simpa [hiin, List.append_assoc] using this
  have hr7 : StringReader.read ⟨('@' :: a :: b :: c :: 'A' :: 'N' :: 'S' :: 'I' :: ' ' :: (iin ++ ver ++ jur ++ num ++ tail) : Str), 17⟩ 2 =
      .ok (jur, ⟨'@' :: a :: b :: c :: 'A' :: 'N' :: 'S' :: 'I' :: ' ' :: (iin ++ ver ++ jur ++ num ++ tail), 19⟩) := by
    have := read_exact (['@', a, b, c, 'A', 'N', 'S', 'I', ' '] ++ iin ++
      ver) jur (num ++ tail) 2 (by simp [hjur])
    simpa [hiin, hver, List.append_assoc] using this
  have hr8 : StringReader.read ⟨('@' :: a :: b :: c :: 'A' :: 'N' :: 'S' :: 'I' :: ' ' :: (iin ++ ver ++ jur ++ num ++ tail) : Str), 19⟩ 2 =
      .ok (num, ⟨'@' :: a :: b :: c :: 'A' :: 'N' :: 'S' :: 'I' :: ' ' :: (iin ++ ver ++ jur ++ num ++ tail), 21⟩) := by
    have := read_exact (['@', a, b, c, 'A', 'N', 'S', 'I', ' '] ++ iin ++
      ver ++ jur) num tail 2 (by simp [hnum])
    simpa [hiin, hver, hjur, List.append_assoc] using this
  simp only [initState, mkParser, drive, runFunc, readSeparator, hr0, hr1,
    hr2, hr3, hr4, hr5, hr6, hr7, hr8, invalidSeparatorTest, List.any_cons,
    List.any_nil, ha, hb, hc, Bool.or_false, Bool.false_eq_true, if_false,
    hN, initResult, emptyHeader, List.cons_append, List.nil_append,
    List.append_nil, Int.toNat_natCast, reduceIte]

/-- Symbolic execution of the designator phase: `blocks.length` queued
designator steps consume exactly the concatenated valid blocks and append
their designators in order. -/
theorem sd_phase (blocks : List Str) :
    ∀ (pre post : Str) (res : ParseResult) (k : List PFunc),
      (∀ b ∈ blocks, ValidBlock b) →
      drive blocks.length
          ⟨⟨pre ++ (blocks.foldr (· ++ ·) [] ++ post), (pre.length : Int)⟩,
            List.replicate blocks.length .sd1 ++ k, res⟩ =
        .more ⟨⟨pre ++ (blocks.foldr (· ++ ·) [] ++ post),
            (pre.length : Int) + 10 * (blocks.length : Int)⟩,
          k, { res with subfileDesignators :=
            res.subfileDesignators ++ blocks.map blockToSd }⟩ := by
  induction blocks with
  | nil =>
    intro pre post res k hv
    simp [drive]
  | cons b bt ih =>
    intro pre post res k hv
    have hvb : ValidBlock b := hv b (by simp)
    have hvt : ∀ x ∈ bt, ValidBlock x := fun x hx => hv x (by simp [hx])
    have hb10 : b.length = 10 := hvb.1
    have hdata : (b :: bt).foldr (· ++ ·) [] ++ post =
        b ++ (bt.foldr (· ++ ·) [] ++ post) := by
      simp [List.append_assoc]
    rw [hdata]
    have hstep := sd1_step_exact pre b (bt.foldr (· ++ ·) [] ++ post) res hvb
    rw [List.append_assoc] at hstep
    have ih' := ih (pre ++ b) post
      { res with subfileDesignators :=
          res.subfileDesignators ++ [blockToSd b] } k hvt
    rw [List.append_assoc] at ih'
    simp only [List.length_append, hb10, Nat.cast_add, Nat.cast_ofNat]
      at ih'
    simp only [List.length_cons, List.replicate_succ, List.cons_append,
      drive, hstep, List.nil_append]
    rw [ih']
    simp [List.append_assoc]
    omega

theorem concat_len (l : List Str) (h : ∀ x ∈ l, x.length = 10) :
    (l.foldr (· ++ ·) []).length = 10 * l.length := by
  induction l with
  | nil => simp
  | cons x xs ih =>
    simp only [List.foldr_cons, List.length_append, List.length_cons,
      h x (by simp), ih (fun y hy => h y (by simp [hy]))]
    ring

/-- C3: with a well-formed header declaring `numEntries = N` followed by
`N` valid designator blocks, the engine parses exactly `N` designators
(leaving only the subfiles step queued); and when only `j < N` whole
blocks plus a partial block are available, the engine throws `EOF`
(InsufficientData) — never a structural error — with exactly `j`
designators accumulated. -/
theorem c3_exact_entry_count (a b c : Char) (iin ver jur num : Str)
    (blocks : List Str) (tail : Str) (N : Nat)
    (ha : isSepForbidden a = false) (hb : isSepForbidden b = false)
    (hc : isSepForbidden c = false)
    (hiin : iin.length = 6) (hver : ver.length = 2) (hjur : jur.length = 2)
    (hnum : num.length = 2) (hN : jsParseInt num = some (N : Int))
    (hblocks : ∀ x ∈ blocks, ValidBlock x) (hcount : blocks.length = N) :
    (drive (11 + N) (initState ('@' :: a :: b :: c :: 'A' :: 'N' :: 'S' :: 'I' :: ' ' :: (iin ++ ver ++ jur ++ num ++ (blocks.foldr (· ++ ·) [] ++ tail)))) =
      .more ⟨⟨'@' :: a :: b :: c :: 'A' :: 'N' :: 'S' :: 'I' :: ' ' :: (iin ++ ver ++ jur ++ num ++ (blocks.foldr (· ++ ·) [] ++ tail)), 21 + 10 * (N : Int)⟩, [.sfs],
        { header :=
            { dataElementSeparator := [a], recordSeparator := [b],
              segmentTerminator := [c], iin := iin, aamvaVersion := ver,
              jurisdictionVersion := jur, numEntries := (N : Int) },
          subfileDesignators := blocks.map blockToSd,
          subfiles := [] }⟩ ∧
      (blocks.map blockToSd).length = N) ∧
    (∀ (j : Nat) (pb : Str), j < N → pb.length < 10 →
      ∃ st, drive (12 + j) (initState ('@' :: a :: b :: c :: 'A' :: 'N' :: 'S' :: 'I' :: ' ' :: (iin ++ ver ++ jur ++ num ++ ((blocks.take j).foldr (· ++ ·) [] ++ pb)))) = .threw .eof st ∧
        st.result.subfileDesignators = (blocks.take j).map blockToSd) := by
  have hpre : ((['@', a, b, c, 'A', 'N', 'S', 'I', ' '] ++ iin ++ ver ++
      jur ++ num : Str).length : Int) = 21 := by
    simp [hiin, hver, hjur, hnum]
  refine ⟨⟨?_, by simp [hcount]⟩, ?_⟩
  · have hhdr := header_phase a b c iin ver jur num
      (blocks.foldr (· ++ ·) [] ++ tail) N ha hb hc hiin hver hjur hnum hN
    have hcomp := drive_more_compose 11 N _ _ hhdr
    have hsd := sd_phase blocks
      (['@', a, b, c, 'A', 'N', 'S', 'I', ' '] ++ iin ++ ver ++ jur ++ num)
      tail
      { header :=
          { dataElementSeparator := [a], recordSeparator := [b],
              segmentTerminator := [c], iin := iin, aamvaVersion := ver,
              jurisdictionVersion := jur, numEntries := (N : Int) },
        subfileDesignators := [], subfiles := [] }
      [.sfs] hblocks
    rw [hcount, hpre] at hsd
    simp only [List.append_assoc, List.cons_append, List.nil_append]
      at hcomp hsd ⊢
    rw [hcomp, hsd]
  · intro j pb hj hpb
    have htk : ∀ x ∈ blocks.take j, ValidBlock x := fun x hx =>
      hblocks x (List.mem_of_mem_take hx)
    have hlen : (blocks.take j).length = j := by
      rw [List.length_take]
      omega
    have hclen : ((blocks.take j).foldr (· ++ ·) []).length = 10 * j := by
      rw [concat_len _ (fun x hx => (htk x hx).1), hlen]
    have hhdr := header_phase a b c iin ver jur num
      ((blocks.take j).foldr (· ++ ·) [] ++ pb) N ha hb hc hiin hver hjur
      hnum hN
    have hfun : (List.replicate N PFunc.sd1 ++ [PFunc.sfs]) =
        List.replicate j PFunc.sd1 ++
          (List.replicate (N - j) PFunc.sd1 ++ [PFunc.sfs]) := by
      rw [← List.append_assoc, ← List.replicate_add]
      congr 2
      omega
    rw [hfun] at hhdr
    have hcomp := drive_more_compose 11 (j + 1) _ _ hhdr
    have hsd := sd_phase (blocks.take j)
      (['@', a, b, c, 'A', 'N', 'S', 'I', ' '] ++ iin ++ ver ++ jur ++ num)
      pb
      { header :=
          { dataElementSeparator := [a], recordSeparator := [b],
              segmentTerminator := [c], iin := iin, aamvaVersion := ver,
              jurisdictionVersion := jur, numEntries := (N : Int) },
        subfileDesignators := [], subfiles := [] }
      (List.replicate (N - j) PFunc.sd1 ++ [PFunc.sfs]) htk
    rw [hlen, hpre] at hsd
    simp only [List.append_assoc, List.cons_append, List.nil_append]
      at hcomp hsd ⊢
    have hcomp2 := drive_more_compose j 1 _ _ hsd
    obtain ⟨m, hm⟩ : ∃ m, N - j = m + 1 := ⟨N - j - 1, by omega⟩
    have hpeek : StringReader.peek
        ⟨'@' :: a :: b :: c :: 'A' :: 'N' :: 'S' :: 'I' :: ' ' :: (iin ++ (ver ++ (jur ++ (num ++ ((blocks.take j).foldr (· ++ ·) [] ++ pb))))), 21 + 10 * (j : Int)⟩ 10 = .error .eof := by
      simp only [StringReader.peek, StringReader.avail]
      rw [if_pos (by
        simp only [List.length_cons, List.length_append, hiin, hver, hjur,
          hnum, hclen]
        push_cast
        omega)]
    rw [show (12 + j) = 11 + (j + 1) from by omega, hcomp, hcomp2, hm,
      List.replicate_succ, List.cons_append]
    refine ⟨⟨⟨'@' :: a :: b :: c :: 'A' :: 'N' :: 'S' :: 'I' :: ' ' :: (iin ++ (ver ++ (jur ++ (num ++ ((blocks.take j).foldr (· ++ ·) [] ++ pb))))), 21 + 10 * (j : Int)⟩,
      .sd1 :: (List.replicate m .sd1 ++ [.sfs]),
      { header :=
          { dataElementSeparator := [a], recordSeparator := [b],
              segmentTerminator := [c], iin := iin, aamvaVersion := ver,
              jurisdictionVersion := jur, numEntries := (N : Int) },
        subfileDesignators := (blocks.take j).map blockToSd,
        subfiles := [] }⟩, ?_, rfl⟩
    simp only [drive, runFunc, parseSubfileDesignator, hpeek]

theorem c3_witness :
    (drive (11 + 2) (initState ('@' :: '\n' :: '\x1e' :: '\r' :: 'A' :: 'N' :: 'S' :: 'I' :: ' ' :: (("636000").data ++ ("11").data ++ ("00").data ++ ("02").data ++ ([("DL00410010").data, ("ZV00510005").data].foldr (· ++ ·) [] ++ ("XYZ").data)))) =
      .more ⟨⟨'@' :: '\n' :: '\x1e' :: '\r' :: 'A' :: 'N' :: 'S' :: 'I' :: ' ' :: (("636000").data ++ ("11").data ++ ("00").data ++ ("02").data ++ ([("DL00410010").data, ("ZV00510005").data].foldr (· ++ ·) [] ++ ("XYZ").data)), 21 + 10 * ((2 : Nat) : Int)⟩, [.sfs],
        { header :=
            { dataElementSeparator := ['\n'], recordSeparator := ['\x1e'],
              segmentTerminator := ['\r'], iin := ("636000").data,
              aamvaVersion := ("11").data,
              jurisdictionVersion := ("00").data,
              numEntries := ((2 : Nat) : Int) },
          subfileDesignators := [("DL00410010").data, ("ZV00510005").data].map blockToSd,
          subfiles := [] }⟩ ∧
      ([("DL00410010").data, ("ZV00510005").data].map blockToSd).length = 2) ∧
    (∀ (j : Nat) (pb : Str), j < 2 → pb.length < 10 →
      ∃ st, drive (12 + j) (initState ('@' :: '\n' :: '\x1e' :: '\r' :: 'A' :: 'N' :: 'S' :: 'I' :: ' ' :: (("636000").data ++ ("11").data ++ ("00").data ++ ("02").data ++ (([("DL00410010").data, ("ZV00510005").data].take j).foldr (· ++ ·) [] ++ pb)))) = .threw .eof st ∧
        st.result.subfileDesignators = ([("DL00410010").data, ("ZV00510005").data].take j).map blockToSd) :=
  c3_exact_entry_count '\n' '\x1e' '\r' ("636000").data ("11").data
    ("00").data ("02").data [("DL00410010").data, ("ZV00510005").data] ("XYZ").data 2 (by decide) (by decide)
    (by decide) (by decide) (by decide) (by decide) (by decide) (by decide)
    (by decide) (by decide)

/-- C7: once a non-EOF validation failure has been recorded in the older
parser's `error` field, the instance is terminally failed: every later
`append` returns `false` and leaves the whole state — header, designators,
subfiles, done flag and buffer cursor — untouched, and no sequence of
later `append` calls ever changes the state again. -/
theorem c7_terminal_failed_state (st : StateA) (e : PErr)
    (herr : st.error = some e) :
    (∀ (d : Str) (fuel sfuel : Nat),
      appendA fuel sfuel st d = some (st, false)) ∧
    (∀ (ds : List Str) (fuel sfuel : Nat),
      appendManyA fuel sfuel st ds = some st) := by
  have h1 : ∀ (d : Str) (fuel sfuel : Nat),
      appendA fuel sfuel st d = some (st, false) := by
    intro d fuel sfuel
    simp [appendA, herr]
  refine ⟨h1, ?_⟩
  intro ds
  induction ds with
  | nil =>
    intro fuel sfuel
    rfl
  | cons d dt ih =>
    intro fuel sfuel
    have h2 : appendManyA fuel sfuel st (d :: dt) =
        appendManyA fuel sfuel st dt := by
      simp [appendManyA, List.foldl_cons, h1]
    rw [h2]
    exact ih fuel sfuel

theorem c7_witness :
    appendA 30 30 (mkParserA []) ("@A").data =
      some (⟨⟨("@A").data, 2⟩, some .parse, emptyHeader, [], [], false,
        [.hSep1, .hSep2, .hSep3, .hAnsi, .hIin, .hVer, .hJur, .hNum,
          .spawn]⟩, false) ∧
    (⟨⟨("@A").data, 2⟩, some .parse, emptyHeader, [], [], false,
        [.hSep1, .hSep2, .hSep3, .hAnsi, .hIin, .hVer, .hJur, .hNum,
          .spawn]⟩ : StateA).error = some .parse ∧
    ((∀ (d : Str) (fuel sfuel : Nat),
      appendA fuel sfuel
        ⟨⟨("@A").data, 2⟩, some .parse, emptyHeader, [], [], false,
          [.hSep1, .hSep2, .hSep3, .hAnsi, .hIin, .hVer, .hJur, .hNum,
            .spawn]⟩ d =
        some (⟨⟨("@A").data, 2⟩, some .parse, emptyHeader, [], [], false,
          [.hSep1, .hSep2, .hSep3, .hAnsi, .hIin, .hVer, .hJur, .hNum,
            .spawn]⟩, false)) ∧
    (∀ (ds : List Str) (fuel sfuel : Nat),
      appendManyA fuel sfuel
        ⟨⟨("@A").data, 2⟩, some .parse, emptyHeader, [], [], false,
          [.hSep1, .hSep2, .hSep3, .hAnsi, .hIin, .hVer, .hJur, .hNum,
            .spawn]⟩ ds =
        some ⟨⟨("@A").data, 2⟩, some .parse, emptyHeader, [], [], false,
          [.hSep1, .hSep2, .hSep3, .hAnsi, .hIin, .hVer, .hJur, .hNum,
            .spawn]⟩)) :=
  ⟨by decide, rfl, c7_terminal_failed_state _ .parse rfl⟩

theorem jsSubstring_nat (d : Str) (p n : Nat) (hp : p ≤ d.length) :
    jsSubstring d (p : Int) ((p : Int) + (n : Int)) = (d.drop p).take n := by
  simp only [jsSubstring]
  have h1 : min (max (p : Int) 0) (d.length : Int) = (p : Int) := by omega
  have h2 : min (max ((p : Int) + (n : Int)) 0) (d.length : Int) =
      min ((p : Int) + (n : Int)) (d.length : Int) := by omega
  rw [h1, h2]
  have h3 : min (p : Int) (min ((p : Int) + (n : Int)) (d.length : Int)) =
      (p : Int) := by omega
  have h4 : max (p : Int) (min ((p : Int) + (n : Int)) (d.length : Int)) =
      min ((p : Int) + (n : Int)) (d.length : Int) := by omega
  rw [h3, h4]
  have h5 : (min ((p : Int) + (n : Int)) (d.length : Int)).toNat =
      min (p + n) d.length := by omega
  have h6 : ((p : Int)).toNat = p := by omega
  rw [h5, h6, List.drop_take]
  rcases le_or_lt (p + n) d.length with h | h
  · congr 1
    omega
  · have he : min (p + n) d.length - p = d.length - p := by omega
    rw [he, List.take_of_length_le (by simp), List.take_of_length_le (by
      simp only [List.length_drop]
      omega)]

theorem peek_ok_le (r : StringReader) (n : Int) (s : Str)
    (h : r.peek n = .ok s) : n ≤ r.avail := by
  simp only [StringReader.peek] at h
  by_contra hlt
  rw [if_pos (by omega)] at h
  exact Except.noConfusion h

/-- Peeking depends only on the buffer suffix at the cursor. -/
theorem peek_translate (d1 d2 : Str) (p1 p2 n : Nat)
    (hsuf : d1.drop p1 = d2.drop p2) (h1 : p1 ≤ d1.length)
    (h2 : p2 ≤ d2.length) :
    StringReader.peek ⟨d1, (p1 : Int)⟩ (n : Int) =
      StringReader.peek ⟨d2, (p2 : Int)⟩ (n : Int) := by
  have hav : (d1.length : Int) - (p1 : Int) = (d2.length : Int) - (p2 : Int)
      := by
    have := congrArg List.length hsuf
    simp only [List.length_drop] at this
    omega
  simp only [StringReader.peek, StringReader.avail]
  rcases lt_or_le ((d1.length : Int) - (p1 : Int)) (n : Int) with hlt | hle
  · rw [if_pos (by omega), if_pos (by omega)]
  · rw [if_neg (by omega), if_neg (by omega)]
    rw [jsSubstring_nat d1 p1 n h1, jsSubstring_nat d2 p2 n h2, hsuf]

/-- The value loop of the older `parseRecord` depends only on the buffer
suffix at the cursor: on two buffers agreeing from the cursor on, it
produces the same value and consumes the same number of characters. -/
theorem valLoopAF_translate (counter : Nat) :
    ∀ (hdr : Header) (d1 d2 : Str) (p1 p2 : Nat) (val : Str),
      d1.drop p1 = d2.drop p2 → p1 ≤ d1.length → p2 ≤ d2.length →
      (∃ e, valLoopAF counter hdr ⟨d1, (p1 : Int)⟩ val = .error e ∧
        valLoopAF counter hdr ⟨d2, (p2 : Int)⟩ val = .error e) ∨
      (∃ v δ, valLoopAF counter hdr ⟨d1, (p1 : Int)⟩ val =
          .ok (v, ⟨d1, ((p1 + δ : Nat) : Int)⟩) ∧
        valLoopAF counter hdr ⟨d2, (p2 : Int)⟩ val =
          .ok (v, ⟨d2, ((p2 + δ : Nat) : Int)⟩) ∧
        p1 + δ ≤ d1.length ∧ p2 + δ ≤ d2.length) := by
  induction counter with
  | zero =>
    intro hdr d1 d2 p1 p2 val hsuf h1 h2
    exact .inl ⟨.eof, rfl, rfl⟩
  | succ counter ih =>
    intro hdr d1 d2 p1 p2 val hsuf h1 h2
    have hpk := peek_translate d1 d2 p1 p2 1 hsuf h1 h2
    simp only [Nat.cast_one] at hpk
    rcases hp1 : StringReader.peek ⟨d1, (p1 : Int)⟩ 1 with e | next
    · rw [hp1] at hpk
      refine .inl ⟨e, ?_, ?_⟩ <;>
        simp only [valLoopAF, hp1, ← hpk]
    · rw [hp1] at hpk
      have hb1 : p1 + 1 ≤ d1.length := by
        have := peek_ok_le _ _ _ hp1
        simp only [StringReader.avail] at this
        omega
      have hb2 : p2 + 1 ≤ d2.length := by
        have := peek_ok_le _ _ _ hpk.symm
        simp only [StringReader.avail] at this
        omega
      by_cases hsep : next = hdr.dataElementSeparator ∨
          next = hdr.segmentTerminator
      · refine .inr ⟨val, 0, ?_, ?_, by omega, by omega⟩ <;>
          simp only [valLoopAF, hp1, ← hpk, if_pos hsep, Nat.add_zero]
      · have hsuf1 : d1.drop (p1 + 1) = d2.drop (p2 + 1) := by
          rw [← List.drop_drop 1 p1 d1, ← List.drop_drop 1 p2 d2, hsuf]
        have := ih hdr d1 d2 (p1 + 1) (p2 + 1) (val ++ next) hsuf1 hb1 hb2
        have hc1 : ((p1 : Int) + 1) = ((p1 + 1 : Nat) : Int) := by push_cast; ring
        have hc2 : ((p2 : Int) + 1) = ((p2 + 1 : Nat) : Int) := by push_cast; ring
        rcases this with ⟨e, he1, he2⟩ | ⟨v, δ, hv1, hv2, hd1, hd2⟩
        · refine .inl ⟨e, ?_, ?_⟩ <;>
            simp only [valLoopAF, hp1, ← hpk, if_neg hsep, hc1, hc2, he1,
              he2]
        · refine .inr ⟨v, 1 + δ, ?_, ?_, by omega, by omega⟩ <;>
            simp only [valLoopAF, hp1, ← hpk, if_neg hsep, hc1, hc2, hv1,
              hv2, show p1 + 1 + δ = p1 + (1 + δ) by omega,
              show p2 + 1 + δ = p2 + (1 + δ) by omega]

/-- The older `parseRecord` depends only on the buffer suffix at the
cursor: same key/value and same consumption on two buffers agreeing from
the cursor on. -/
theorem parseRecordA_translate (hdr : Header) (d1 d2 : Str) (p1 p2 : Nat)
    (hsuf : d1.drop p1 = d2.drop p2) (h1 : p1 ≤ d1.length)
    (h2 : p2 ≤ d2.length) :
    (∃ e, parseRecordA hdr ⟨d1, (p1 : Int)⟩ = .error e ∧
      parseRecordA hdr ⟨d2, (p2 : Int)⟩ = .error e) ∨
    (∃ kv δ, parseRecordA hdr ⟨d1, (p1 : Int)⟩ =
        .ok (kv, ⟨d1, ((p1 + δ : Nat) : Int)⟩) ∧
      parseRecordA hdr ⟨d2, (p2 : Int)⟩ =
        .ok (kv, ⟨d2, ((p2 + δ : Nat) : Int)⟩) ∧
      p1 + δ ≤ d1.length ∧ p2 + δ ≤ d2.length) := by
  have hl := congrArg List.length hsuf
  simp only [List.length_drop] at hl
  have hpk := peek_translate d1 d2 p1 p2 3 hsuf h1 h2
  simp only [Nat.cast_ofNat] at hpk
  rcases hp1 : StringReader.peek ⟨d1, (p1 : Int)⟩ 3 with e | key
  · rw [hp1] at hpk
    refine .inl ⟨e, ?_, ?_⟩ <;>
      simp only [parseRecordA, StringReader.read, hp1, ← hpk]
  · rw [hp1] at hpk
    have hb1 : p1 + 3 ≤ d1.length := by
      have := peek_ok_le _ _ _ hp1
      simp only [StringReader.avail] at this
      omega
    have hb2 : p2 + 3 ≤ d2.length := by omega
    have hc1 : ((p1 : Int) + 3) = ((p1 + 3 : Nat) : Int) := by
      push_cast
      ring
    have hc2 : ((p2 : Int) + 3) = ((p2 + 3 : Nat) : Int) := by
      push_cast
      ring
    rcases hkb : hasUpperRun3 key with _ | _
    · refine .inl ⟨.parse, ?_, ?_⟩ <;>
        simp only [parseRecordA, StringReader.read, hp1, ← hpk, hkb,
          Bool.false_eq_true, not_false_eq_true, if_true]
    · have hsuf3 : d1.drop (p1 + 3) = d2.drop (p2 + 3) := by
        rw [← List.drop_drop 3 p1 d1, ← List.drop_drop 3 p2 d2, hsuf]
      have htr := valLoopAF_translate
        ((StringReader.avail ⟨d1, ((p1 + 3 : Nat) : Int)⟩).toNat + 1)
        hdr d1 d2 (p1 + 3) (p2 + 3) [] hsuf3 hb1 hb2
      have hcount : (StringReader.avail ⟨d2, ((p2 + 3 : Nat) : Int)⟩).toNat
          + 1 =
          (StringReader.avail ⟨d1, ((p1 + 3 : Nat) : Int)⟩).toNat + 1 := by
        simp only [StringReader.avail]
        omega
      rcases htr with ⟨e, he1, he2⟩ | ⟨v, δ, hv1, hv2, hd1, hd2⟩
      · refine .inl ⟨e, ?_, ?_⟩
        · simp only [parseRecordA, StringReader.read, hp1, hkb, not_true,
            eq_self_iff_true, if_false, valLoopA, hc1, he1]
        · simp only [parseRecordA, StringReader.read, ← hpk, hkb, not_true,
            eq_self_iff_true, if_false, valLoopA, hc2, hcount, he2]
      · refine .inr ⟨(key, v), 3 + δ, ?_, ?_, by omega, by omega⟩
        · simp only [parseRecordA, StringReader.read, hp1, hkb, not_true,
            eq_self_iff_true, if_false, valLoopA, hc1, hv1,
            show p1 + (3 + δ) = p1 + 3 + δ by omega]
        · simp only [parseRecordA, StringReader.read, ← hpk, hkb, not_true,
            eq_self_iff_true, if_false, valLoopA, hc2, hcount, hv2,
            show p2 + (3 + δ) = p2 + 3 + δ by omega]

/-- The older subfile scan loop depends only on the buffer suffix at the
cursor. -/
theorem loopA_translate (fuel : Nat) :
    ∀ (hdr : Header) (d1 d2 : Str) (p1 p2 : Nat) (recs : RecMap),
      d1.drop p1 = d2.drop p2 → p1 ≤ d1.length → p2 ≤ d2.length →
      parseSubfileLoopA fuel hdr ⟨d1, (p1 : Int)⟩ recs =
        parseSubfileLoopA fuel hdr ⟨d2, (p2 : Int)⟩ recs := by
  induction fuel with
  | zero =>
    intro hdr d1 d2 p1 p2 recs hsuf h1 h2
    rfl
  | succ fuel ih =>
    intro hdr d1 d2 p1 p2 recs hsuf h1 h2
    have hpk := peek_translate d1 d2 p1 p2 1 hsuf h1 h2
    simp only [Nat.cast_one] at hpk
    rcases hp1 : StringReader.peek ⟨d1, (p1 : Int)⟩ 1 with e | next
    · rw [hp1] at hpk
      simp only [parseSubfileLoopA, hp1, ← hpk]
    · rw [hp1] at hpk
      have hb1 : p1 + 1 ≤ d1.length := by
        have := peek_ok_le _ _ _ hp1
        simp only [StringReader.avail] at this
        omega
      have hb2 : p2 + 1 ≤ d2.length := by
        have hlg := congrArg List.length hsuf
        simp only [List.length_drop] at hlg
        omega
      simp only [parseSubfileLoopA, hp1, ← hpk]
      by_cases hst : next = hdr.segmentTerminator
      · rw [if_pos hst, if_pos hst]
      · rw [if_neg hst, if_neg hst]
        by_cases hdes : next = hdr.dataElementSeparator
        · rw [if_pos hdes, if_pos hdes]
          have hc1 : ((p1 : Int) + 1) = ((p1 + 1 : Nat) : Int) := by
            push_cast
            ring
          have hc2 : ((p2 : Int) + 1) = ((p2 + 1 : Nat) : Int) := by
            push_cast
            ring
          have hsuf1 : d1.drop (p1 + 1) = d2.drop (p2 + 1) := by
            rw [← List.drop_drop 1 p1 d1, ← List.drop_drop 1 p2 d2, hsuf]
          simp only [hc1, hc2]
          exact ih hdr d1 d2 (p1 + 1) (p2 + 1) recs hsuf1 hb1 hb2
        · rw [if_neg hdes, if_neg hdes]
          rcases parseRecordA_translate hdr d1 d2 p1 p2 hsuf h1 h2 with
            ⟨e, he1, he2⟩ | ⟨⟨k, v⟩, δ, hv1, hv2, hd1, hd2⟩
          · simp only [he1, he2]
          · simp only [hv1, hv2]
            have hsufd : d1.drop (p1 + δ) = d2.drop (p2 + δ) := by
              rw [← List.drop_drop δ p1 d1, ← List.drop_drop δ p2 d2, hsuf]
            exact ih hdr d1 d2 (p1 + δ) (p2 + δ) (mapSet recs k v) hsufd
              hd1 hd2

set_option maxHeartbeats 2000000 in
/-- C6 counterexample: the claimed data-element-separator tolerance of the
subfile scan loop fails.  In the newer engine the scan loop has no
separator branch at all: the body `"DL\nDAQ1\r"` (a data-element separator
right after the type prefix) makes the whole parse throw `ParseError`,
while the same input without the separator completes with the `DAQ`
record.  In the older engine the tolerance exists but is shadowed whenever
the data element separator equals the segment terminator: a leading
separator then terminates the subfile with no records instead of being
skipped. -/
theorem c6_counterexample :
    drive 40 (initState c6BadData) = .threw .parse c6BadFinal ∧
    drive 40 (initState c6GoodData) = .done c6GoodFinal ∧
    c6GoodFinal.result.subfiles =
      [(['D', 'L'], [(['D', 'A', 'Q'], ['1'])])] ∧
    parseSubfileLoopA 20 hdrEq ⟨("DL\x01DAQ1\x01").data, 2⟩ [] =
      .ok (some []) ∧
    parseSubfileLoopA 20 hdrEq ⟨("DLDAQ1\x01").data, 2⟩ [] =
      .ok (some [(['D', 'A', 'Q'], ['1'])]) := by
  refine ⟨by decide, by decide, by decide, by decide, by decide⟩

/-- C6 (amended): in the older generation's scan loop, *when the data
element separator differs from the segment terminator*, a peeked
data-element separator character is consumed and the loop continues
without producing a record and without error; consequently a body with a
leading separator right after the 2-character type prefix scans to the
same records as the body without it.  (Per `c6_counterexample`, the claim
fails when the two separators coincide, and the newer generation's scan
loop has no such tolerance.) -/
theorem c6_separator_tolerance (hdr : Header) (des st : Char)
    (hdes : hdr.dataElementSeparator = [des])
    (hst : hdr.segmentTerminator = [st]) (hne : des ≠ st) :
    (∀ (fuel : Nat) (sfr : StringReader) (recs : RecMap),
      sfr.peek 1 = .ok [des] →
      parseSubfileLoopA (fuel + 1) hdr sfr recs =
        parseSubfileLoopA fuel hdr { sfr with pos := sfr.pos + 1 } recs) ∧
    (∀ (t body : Str) (fuel : Nat), t.length = 2 →
      parseSubfileLoopA (fuel + 1) hdr ⟨t ++ des :: body, 2⟩ [] =
        parseSubfileLoopA fuel hdr ⟨t ++ body, 2⟩ []) := by
  have hstep : ∀ (fuel : Nat) (sfr : StringReader) (recs : RecMap),
      sfr.peek 1 = .ok [des] →
      parseSubfileLoopA (fuel + 1) hdr sfr recs =
        parseSubfileLoopA fuel hdr { sfr with pos := sfr.pos + 1 } recs := by
    intro fuel sfr recs hpk
    simp only [parseSubfileLoopA, hpk]
    rw [if_neg (by simp [hst, hne]), if_pos (by rw [hdes])]
  refine ⟨hstep, ?_⟩
  intro t body fuel ht
  have hpk : StringReader.peek ⟨t ++ des :: body, 2⟩ 1 = .ok [des] := by
    have := peek_exact t [des] body 1 (by simp)
    simpa [ht] using this
  rw [hstep fuel ⟨t ++ des :: body, 2⟩ [] hpk]
  have hc3 : (2 : Int) + 1 = ((3 : Nat) : Int) := by norm_num
  have hc2 : (2 : Int) = ((2 : Nat) : Int) := by norm_num
  simp only [hc3]
  rw [show (⟨t ++ body, 2⟩ : StringReader) =
    ⟨t ++ body, ((2 : Nat) : Int)⟩ from by rw [← hc2]]
  apply loopA_translate fuel hdr _ _ 3 2 []
  · rw [show (3 : Nat) = t.length + 1 from by omega, List.drop_append 1,
      show (2 : Nat) = t.length + 0 from by omega, List.drop_append 0]
    rfl
  · simp only [List.length_append, List.length_cons]
    omega
  · simp only [List.length_append]
    omega

theorem c6_witness :
    hdrA.dataElementSeparator = ['\n'] ∧ hdrA.segmentTerminator = ['\r'] ∧
    '\n' ≠ '\r' ∧
    ((∀ (fuel : Nat) (sfr : StringReader) (recs : RecMap),
      sfr.peek 1 = .ok ['\n'] →
      parseSubfileLoopA (fuel + 1) hdrA sfr recs =
        parseSubfileLoopA fuel hdrA { sfr with pos := sfr.pos + 1 } recs) ∧
    (∀ (t body : Str) (fuel : Nat), t.length = 2 →
      parseSubfileLoopA (fuel + 1) hdrA ⟨t ++ '\n' :: body, 2⟩ [] =
        parseSubfileLoopA fuel hdrA ⟨t ++ body, 2⟩ [])) :=
  ⟨rfl, rfl, by decide,
    c6_separator_tolerance hdrA '\n' '\r' rfl rfl (by decide)⟩

theorem drive_nil_strip (fuel : Nat) (r : StringReader) (res : ParseResult) :
    stripOutcome (drive fuel ⟨r, [], res⟩) =
      if fuel = 0 then ((2, none), [], res) else ((0, none), [], res) := by
  cases fuel <;> simp [drive, stripOutcome]

theorem drive_nil_done (fuel : Nat) (r : StringReader) (res : ParseResult)
    (F : EngState) (h : drive fuel ⟨r, [], res⟩ = .done F) :
    F = ⟨r, [], res⟩ := by
  cases fuel with
  | zero => simp [drive] at h
  | succ n =>
    simp only [drive] at h
    cases h
    rfl

/-- The record-scan steps of the newer engine never look at the shared
reader: driving a single `maybeParseRecord`/`parseRecord` step queue gives
the same outcome (up to the untouched reader) whatever the reader holds. -/
theorem scan_reader_irrelevant (fuel : Nat) :
    ∀ (sfr : StringReader) (ty : Str) (recs : RecMap) (f : PFunc),
      (f = .mrec sfr ty recs ∨ f = .rec1 sfr ty recs) →
      ∀ (r r' : StringReader) (res : ParseResult),
        stripOutcome (drive fuel ⟨r, [f], res⟩) =
          stripOutcome (drive fuel ⟨r', [f], res⟩) := by
  induction fuel with
  | zero =>
    intro sfr ty recs f hf r r' res
    simp [drive, stripOutcome]
  | succ fuel ih =>
    intro sfr ty recs f hf r r' res
    rcases hf with hf | hf <;> subst hf
    · simp only [drive, runFunc]
      rcases ho : mrecOut sfr ty recs res with e | ⟨res1, next⟩ <;>
        simp only [ho]
      · simp [stripOutcome]
      · have hshape : next = [] ∨ next = [PFunc.rec1 sfr ty recs] := by
          simp only [mrecOut] at ho
          rcases hp : sfr.peek 1 with e | c
          · rcases e <;> simp only [hp] at ho
            · exact .inl (congrArg Prod.snd (Except.ok.inj ho)).symm
            · exact Except.noConfusion ho
            · exact Except.noConfusion ho
          · simp only [hp] at ho
            split at ho
            · rcases hr : sfr.read 1 with e | q <;> simp only [hr] at ho
              · exact Except.noConfusion ho
              · exact .inl (congrArg Prod.snd (Except.ok.inj ho)).symm
            · exact .inr (congrArg Prod.snd (Except.ok.inj ho)).symm
        rcases hshape with h | h <;> subst h
        · rw [List.nil_append]
          exact (drive_nil_strip fuel r res1).trans
            (drive_nil_strip fuel r' res1).symm
        · rw [List.cons_append, List.nil_append]
          exact ih sfr ty recs _ (Or.inr rfl) r r' res1
    · simp only [drive, runFunc]
      rcases ho : rec1Out sfr ty recs res with e | ⟨res1, next⟩ <;>
        simp only [ho]
      · simp [stripOutcome]
      · have hshape : ∃ sfr1 recs1, next = [PFunc.mrec sfr1 ty recs1] := by
          simp only [rec1Out] at ho
          rcases hr : (⟨sfr.data, sfr.pos⟩ : StringReader).read 3 with
            e | ⟨key, c1⟩ <;> simp only [hr] at ho
          · exact Except.noConfusion ho
          · split at ho
            · exact Except.noConfusion ho
            · rcases hv : valLoop res.header c1 [] with e | ⟨val, nextc, c2⟩
                <;> simp only [hv] at ho
              · exact Except.noConfusion ho
              · rcases hr2 : sfr.read ((key.length : Int) +
                    (val.length : Int)) with e | ⟨q, sfr1⟩ <;>
                  simp only [hr2] at ho
                · exact Except.noConfusion ho
                · split at ho
                  · rcases hr3 : sfr1.read 1 with e | ⟨q2, sfr2⟩ <;>
                      simp only [hr3] at ho
                    · exact Except.noConfusion ho
                    · exact ⟨sfr2, mapSet recs key val,
                        (congrArg Prod.snd (Except.ok.inj ho)).symm⟩
                  · exact ⟨sfr1, mapSet recs key val,
                      (congrArg Prod.snd (Except.ok.inj ho)).symm⟩
        rcases hshape with ⟨sfr1, recs1, h⟩
        subst h
        rw [List.cons_append, List.nil_append]
        exact ih sfr1 ty recs1 _ (Or.inl rfl) r r' res1

theorem peek_ok_dest (r : StringReader) (n : Int) (s : Str)
    (h : r.peek n = .ok s) : s = jsSubstring r.data r.pos (r.pos + n) := by
  simp only [StringReader.peek] at h
  split at h
  · exact Except.noConfusion h
  · exact (Except.ok.inj h).symm

theorem jsSubstring_mem (s : Str) (a b : Int) (c : Char)
    (h : c ∈ jsSubstring s a b) : c ∈ s := by
  simp only [jsSubstring] at h
  exact List.mem_of_mem_take (List.mem_of_mem_drop h)

set_option maxHeartbeats 1000000 in
/-- Every character accumulated by the newer engine's value loop comes
from the accumulator or from the scanned buffer. -/
theorem valLoopF_mem (counter : Nat) :
    ∀ (hdr : Header) (d : Str) (p : Int) (val v nextc : Str)
      (c2 : StringReader),
      valLoopF counter hdr ⟨d, p⟩ val = .ok (v, nextc, c2) →
      ∀ c ∈ v, c ∈ val ∨ c ∈ d := by
  induction counter with
  | zero =>
    intro hdr d p val v nextc c2 h
    exact Except.noConfusion h
  | succ counter ih =>
    intro hdr d p val v nextc c2 h
    simp only [valLoopF] at h
    rcases hp : StringReader.peek ⟨d, p⟩ 1 with e | nx <;>
      simp only [hp] at h
    · exact Except.noConfusion h
    · have hnx : nx = jsSubstring d p (p + 1) := peek_ok_dest ⟨d, p⟩ 1 nx hp
      split at h
      · obtain ⟨hv, hrest⟩ := Prod.mk.inj (Except.ok.inj h)
        subst hv
        exact fun c hc => .inl hc
      · intro c hc
        rcases ih hdr d (p + 1) (val ++ nx) v nextc c2 h c hc with hin | hin
        · rcases List.mem_append.mp hin with h1 | h1
          · exact .inl h1
          · exact .inr (jsSubstring_mem d p (p + 1) c (hnx ▸ h1))
        · exact .inr hin

theorem mapSet_mem {α : Type} (m : List (Str × α)) (k : Str) (v : α) :
    ∀ kv ∈ mapSet m k v, kv ∈ m ∨ kv = (k, v) := by
  induction m with
  | nil =>
    intro kv hkv
    simp only [mapSet, List.mem_singleton] at hkv
    exact .inr hkv
  | cons h t ih =>
    intro kv hkv
    obtain ⟨k1, v1⟩ := h
    simp only [mapSet] at hkv
    split at hkv
    · rcases List.mem_cons.mp hkv with h1 | h1
      · exact .inr h1
      · exact .inl (List.mem_cons_of_mem _ h1)
    · rcases List.mem_cons.mp hkv with h1 | h1
      · exact .inl (h1 ▸ List.mem_cons_self _ _)
      · rcases ih kv h1 with h2 | h2
        · exact .inl (List.mem_cons_of_mem _ h2)
        · exact .inr h2

theorem recsOK_set (snap : Str) (recs : RecMap) (k v : Str)
    (hok : RecsOK snap recs) (hk : ∀ c ∈ k, c ∈ snap)
    (hv : ∀ c ∈ v, c ∈ snap) : RecsOK snap (mapSet recs k v) := by
  intro kv hkv
  rcases mapSet_mem recs k v kv hkv with h | h
  · exact hok kv h
  · subst h
    exact ⟨hk, hv⟩

theorem mrecOut_cases (snap ty : Str) (p : Int) (recs : RecMap)
    (res res1 : ParseResult) (next : List PFunc)
    (h : mrecOut ⟨snap, p⟩ ty recs res = .ok (res1, next)) :
    (next = [] ∧
      res1 = { res with subfiles := mapSet res.subfiles ty recs }) ∨
    (next = [.rec1 ⟨snap, p⟩ ty recs] ∧ res1 = res) := by
  simp only [mrecOut] at h
  rcases hp : StringReader.peek ⟨snap, p⟩ 1 with e | c
  · rcases e <;> simp only [hp] at h
    · obtain ⟨h1, h2⟩ := Prod.mk.inj (Except.ok.inj h)
      exact .inl ⟨h2.symm, h1.symm⟩
    · exact Except.noConfusion h
    · exact Except.noConfusion h
  · simp only [hp] at h
    split at h
    · rcases hr : StringReader.read ⟨snap, p⟩ 1 with e | q <;>
        simp only [hr] at h
      · exact Except.noConfusion h
      · obtain ⟨h1, h2⟩ := Prod.mk.inj (Except.ok.inj h)
        exact .inl ⟨h2.symm, h1.symm⟩
    · obtain ⟨h1, h2⟩ := Prod.mk.inj (Except.ok.inj h)
      exact .inr ⟨h2.symm, h1.symm⟩

theorem rec1Out_cases (snap ty : Str) (p : Int) (recs : RecMap)
    (res res1 : ParseResult) (next : List PFunc)
    (h : rec1Out ⟨snap, p⟩ ty recs res = .ok (res1, next)) :
    res1 = res ∧ ∃ (p1 : Int) (key val : Str),
      next = [.mrec ⟨snap, p1⟩ ty (mapSet recs key val)] ∧
      (∀ c ∈ key, c ∈ snap) ∧ (∀ c ∈ val, c ∈ snap) := by
  simp only [rec1Out] at h
  rcases hr : StringReader.read ⟨snap, p⟩ 3 with e | ⟨key, c1⟩ <;>
    simp only [hr] at h
  · exact Except.noConfusion h
  · obtain ⟨hpk, hc1⟩ := read_ok_dest _ _ _ _ hr
    have hkey : ∀ c ∈ key, c ∈ snap := by
      have hks := peek_ok_dest _ _ _ hpk
      intro c hc
      exact jsSubstring_mem _ _ _ c (hks ▸ hc)
    have hc1' : c1 = ⟨snap, p + 3⟩ := hc1.trans rfl
    subst hc1'
    split at h
    · exact Except.noConfusion h
    · rcases hv : valLoop res.header ⟨snap, p + 3⟩ [] with
        e | ⟨val, nextc, c2⟩ <;> simp only [hv] at h
      · exact Except.noConfusion h
      · have hval : ∀ c ∈ val, c ∈ snap := by
          simp only [valLoop] at hv
          intro c hc
          rcases valLoopF_mem _ _ snap (p + 3) [] val nextc c2 hv c hc with
            h1 | h1
          · exact absurd h1 (List.not_mem_nil c)
          · exact h1
        rcases hr2 : StringReader.read ⟨snap, p⟩
            ((key.length : Int) + (val.length : Int)) with e | ⟨q, sfr1⟩ <;>
          simp only [hr2] at h
        · exact Except.noConfusion h
        · obtain ⟨hpk2, hsfr1⟩ := read_ok_dest _ _ _ _ hr2
          have hsfr1' : sfr1 =
              ⟨snap, p + ((key.length : Int) + (val.length : Int))⟩ :=
            hsfr1.trans rfl
          subst hsfr1'
          split at h
          · rcases hr3 : StringReader.read
                ⟨snap, p + ((key.length : Int) + (val.length : Int))⟩ 1 with
              e | ⟨q2, sfr2⟩ <;> simp only [hr3] at h
            · exact Except.noConfusion h
            · obtain ⟨hpk3, hsfr2⟩ := read_ok_dest _ _ _ _ hr3
              have hsfr2' : sfr2 =
                  ⟨snap, p + ((key.length : Int) + (val.length : Int)) + 1⟩
                  := hsfr2.trans rfl
              subst hsfr2'
              obtain ⟨h1, h2⟩ := Prod.mk.inj (Except.ok.inj h)
              exact ⟨h1.symm, _, key, val, h2.symm, hkey, hval⟩
          · obtain ⟨h1, h2⟩ := Prod.mk.inj (Except.ok.inj h)
            exact ⟨h1.symm, _, key, val, h2.symm, hkey, hval⟩

/-- Driving a record scan to completion: starting from a single
`maybeParseRecord`/`parseRecord` step over a snapshot reader, a completed
drive leaves the reader untouched, drains the queue, and commits into the
subfiles map — under the scanned type — a record map all of whose key and
value characters come from the snapshot. -/
theorem scan_records_done (fuel : Nat) :
    ∀ (snap ty : Str) (p : Int) (recs : RecMap) (f : PFunc)
      (r : StringReader) (res : ParseResult) (final : EngState),
      (f = .mrec ⟨snap, p⟩ ty recs ∨ f = .rec1 ⟨snap, p⟩ ty recs) →
      RecsOK snap recs →
      drive fuel ⟨r, [f], res⟩ = .done final →
      ∃ recs1, RecsOK snap recs1 ∧
        final.result =
          { res with subfiles := mapSet res.subfiles ty recs1 } ∧
        final.reader = r ∧ final.funcs = [] := by
  induction fuel with
  | zero =>
    intro snap ty p recs f r res final hf hok hdone
    simp [drive] at hdone
  | succ fuel ih =>
    intro snap ty p recs f r res final hf hok hdone
    rcases hf with hf | hf <;> subst hf
    · simp only [drive, runFunc] at hdone
      rcases ho : mrecOut ⟨snap, p⟩ ty recs res with e | ⟨res1, next⟩ <;>
        simp only [ho] at hdone
      · simp at hdone
      · rcases mrecOut_cases snap ty p recs res res1 next ho with
          ⟨hn, hres⟩ | ⟨hn, hres⟩ <;> subst hn <;> subst hres
        · rw [List.nil_append] at hdone
          have hfin := drive_nil_done fuel r _ final hdone
          subst hfin
          exact ⟨recs, hok, rfl, rfl, rfl⟩
        · rw [List.cons_append, List.nil_append] at hdone
          exact ih snap ty p recs _ r _ final (Or.inr rfl) hok hdone
    · simp only [drive, runFunc] at hdone
      rcases ho : rec1Out ⟨snap, p⟩ ty recs res with e | ⟨res1, next⟩ <;>
        simp only [ho] at hdone
      · simp at hdone
      · obtain ⟨hres, p1, key, val, hn, hkey, hval⟩ :=
          rec1Out_cases snap ty p recs res res1 next ho
        subst hres
        subst hn
        rw [List.cons_append, List.nil_append] at hdone
        exact ih snap ty p1 (mapSet recs key val) _ r _ final
          (Or.inl rfl) (recsOK_set snap recs key val hok hkey hval) hdone

/-- C9: snapshot isolation of subfile scanning in the newer engine.  (a)
The subfile step computes the same output over any two buffers that
contain and agree on the designator's declared range `[offset,
offset+length)`; (b) the entire subsequent record extraction from the
snapshot is identical (up to the untouched shared reader) for the two
buffers; (c) every character of every extracted key and value occurs in
the declared snapshot, and a completed scan leaves the shared reader
untouched. -/
theorem c9_snapshot_isolation (d : SubfileDesignator) (data1 data2 : Str)
    (res : ParseResult)
    (hagree : jsSubstring data1 d.offset (d.offset + d.length) =
      jsSubstring data2 d.offset (d.offset + d.length))
    (h1 : d.length ≤ (data1.length : Int) - d.offset)
    (h2 : d.length ≤ (data2.length : Int) - d.offset) :
    sfOut d data1 res = sfOut d data2 res ∧
    (∀ (fuel : Nat) (r1 r2 : StringReader) (ty : Str),
      stripOutcome (drive fuel ⟨r1,
        [.mrec ⟨jsSubstring data1 d.offset (d.offset + d.length), 2⟩ ty []],
        res⟩) =
      stripOutcome (drive fuel ⟨r2,
        [.mrec ⟨jsSubstring data2 d.offset (d.offset + d.length), 2⟩ ty []],
        res⟩)) ∧
    (∀ (fuel : Nat) (r : StringReader) (ty : Str) (final : EngState),
      drive fuel ⟨r,
        [.mrec ⟨jsSubstring data1 d.offset (d.offset + d.length), 2⟩ ty []],
        res⟩ = .done final →
      ∃ recs1,
        RecsOK (jsSubstring data1 d.offset (d.offset + d.length)) recs1 ∧
        final.result =
          { res with subfiles := mapSet res.subfiles ty recs1 } ∧
        final.reader = r ∧ final.funcs = []) := by
  have hp1 : StringReader.peek ⟨data1, d.offset⟩ d.length =
      .ok (jsSubstring data1 d.offset (d.offset + d.length)) := by
    simp only [StringReader.peek, StringReader.avail]
    rw [if_neg (by omega)]
  have hp2 : StringReader.peek ⟨data2, d.offset⟩ d.length =
      .ok (jsSubstring data2 d.offset (d.offset + d.length)) := by
    simp only [StringReader.peek, StringReader.avail]
    rw [if_neg (by omega)]
  refine ⟨?_, ?_, ?_⟩
  · simp only [sfOut, hp1, hp2, hagree]
  · intro fuel r1 r2 ty
    rw [hagree]
    exact scan_reader_irrelevant fuel
      ⟨jsSubstring data2 d.offset (d.offset + d.length), 2⟩ ty [] _
      (Or.inl rfl) r1 r2 res
  · intro fuel r ty final hdone
    exact scan_records_done fuel
      (jsSubstring data1 d.offset (d.offset + d.length)) ty 2 [] _ r res
      final (Or.inl rfl) (fun kv hkv => absurd hkv (List.not_mem_nil kv))
      hdone

theorem c9_witness :
    sfOut ⟨['D', 'L'], 10, 7⟩ ("0123456789DLDAQ1\rXYZ").data initResult =
      sfOut ⟨['D', 'L'], 10, 7⟩ ("abcdefghijDLDAQ1\r").data initResult ∧
    (∀ (fuel : Nat) (r1 r2 : StringReader) (ty : Str),
      stripOutcome (drive fuel ⟨r1,
        [.mrec ⟨jsSubstring ("0123456789DLDAQ1\rXYZ").data 10 (10 + 7), 2⟩
          ty []], initResult⟩) =
      stripOutcome (drive fuel ⟨r2,
        [.mrec ⟨jsSubstring ("abcdefghijDLDAQ1\r").data 10 (10 + 7), 2⟩
          ty []], initResult⟩)) ∧
    (∀ (fuel : Nat) (r : StringReader) (ty : Str) (final : EngState),
      drive fuel ⟨r,
        [.mrec ⟨jsSubstring ("0123456789DLDAQ1\rXYZ").data 10 (10 + 7), 2⟩
          ty []], initResult⟩ = .done final →
      ∃ recs1,
        RecsOK (jsSubstring ("0123456789DLDAQ1\rXYZ").data 10 (10 + 7))
          recs1 ∧
        final.result = { initResult with
          subfiles := mapSet initResult.subfiles ty recs1 } ∧
        final.reader = r ∧ final.funcs = []) :=
  c9_snapshot_isolation ⟨['D', 'L'], 10, 7⟩ ("0123456789DLDAQ1\rXYZ").data
    ("abcdefghijDLDAQ1\r").data initResult (by decide) (by decide)
    (by decide)
